import Mathlib

/-!
Verification development for the kolide/updater TUF client (package `tuf`).

The Go source is shallowly embedded: Go maps become association lists over
`String` keys, `int`/`int64` become `Int` (or `Nat` where the quantity is a
byte count), byte streams become `List Nat`, `time.Time` instants become `Int`
(Unix seconds), and fallible functions return `Except TufError`.  Cryptographic
primitives (SHA-256/512, ECDSA, base64) are consumed as library calls by the
source and are passed in here as opaque function parameters.  Every embedded
definition is translated from the corresponding function in the repository;
effectful subcalls (HTTP, disk) are supplied through explicit environment
records whose fields stand for the value the call produced.
-/

namespace KolideTuf

/-- Association-list lookup, modelling a Go `map[string]V` read (`v, ok := m[k]`). -/
def alookup (k : String) : List (String × α) → Option α
  | [] => none
  | (k', v) :: rest => if k' = k then some v else alookup k rest

/-- Association-list overwrite-or-append, modelling a Go `m[k] = v` map write. -/
def ainsert (k : String) (v : α) : List (String × α) → List (String × α)
  | [] => [(k, v)]
  | (k', v') :: rest => if k' = k then (k, v) :: rest else (k', v') :: ainsert k v rest

/-- Keys of an association list. -/
def akeys (l : List (String × α)) : List String := l.map Prod.fst

/-- Error kinds of the `tuf` package.  Go wraps errors with `errors.Wrap`,
which preserves the cause; the embedding keeps just the cause's kind. -/
inductive TufError
  | rollbackAttack        -- errRollbackAttack
  | freezeAttack          -- errFreezeAttack
  | unsupportedHash       -- errUnsupportedHash
  | hashIncorrect         -- errHashIncorrect (HashMismatch)
  | lengthIncorrect       -- errLengthIncorrect (LengthMismatch)
  | noSuchTarget          -- errNoSuchTarget
  | notFound              -- errNotFound
  | targetSeen            -- errTargetSeen (TargetAlreadySeen)
  | tooManyDelegates      -- errTooManyDelegates
  | failedIntegrityCheck  -- errFailedIntegrityCheck
  | signatureThresholdNotMet
  | thresholdNotPositive  -- "signature threshold must be greater than zero"
  | invalidHashEncoding   -- "invalid hash in verify" (bad base64 digest)
  | verifierCreation      -- newVerifier failed for a signing method
  | verificationFailure   -- unexpected (non-retryable) signature verify error
  | metaMissing           -- expected FIM entry absent from timestamp/snapshot meta
  | roleInfoMissing       -- "unable to find role info for ..."
  | keyMissing            -- "no key present for key id"
  | fetchFailed           -- transport / JSON-decode failure on a remote read
  | localReadFailed       -- local repository read failure
  | statusNotOk           -- non-200 HTTP status on a required fetch
  | saveFailed            -- persistence failure
  | outOfFuel             -- embedding artifact: recursion fuel exhausted
  deriving DecidableEq, Repr

/-- Key as in roles: key type plus public material (opaque here). -/
structure Key where
  keyType : String
  publicKey : String
  deriving DecidableEq, Repr

/-- Signature entry of a signed role envelope. -/
structure Signature where
  keyID : String
  signingMethod : String
  value : String
  deriving DecidableEq, Repr

/-- FileIntegrityMeta (fim.go): declared hashes (algorithm, base64 digest) and length.
Go's `map[hashingMethod]string` becomes an association list. -/
structure FileIntegrityMeta where
  hashes : List (String × String)
  length : Int
  deriving DecidableEq, Repr

/-- Equal (fim.go): deep comparison of two FileIntegrityMeta — lengths equal,
hash maps of the same size, and every entry of the receiver present and equal
in the argument. -/
def FileIntegrityMeta.Equal (fim fimTarget : FileIntegrityMeta) : Bool :=
  if fim.length ≠ fimTarget.length then false
  else if fim.hashes.length ≠ fimTarget.hashes.length then false
  else fim.hashes.all fun (algo, h) =>
    match alookup algo fimTarget.hashes with
    | none => false
    | some h' => h' = h

/-- getHasher (fim.go): dispatch an algorithm name to its digest function.
The SHA-256 / SHA-512 primitives are library calls in the source and are
passed here as the opaque parameters `sha256Fn` / `sha512Fn`. -/
def getHasher (sha256Fn sha512Fn : List Nat → List Nat) (algoType : String) :
    Except TufError (List Nat → List Nat) :=
  if algoType = "sha256" then .ok sha256Fn
  else if algoType = "sha512" then .ok sha512Fn
  else .error .unsupportedHash

/-- Collection loop of FileIntegrityMeta.verify (fim.go): for every declared
(algorithm, base64 digest) pair, decode the digest and resolve the digest
function, failing on the first bad digest encoding or unknown algorithm.
`b64decode` stands for `base64.StdEncoding.DecodeString`. -/
def collectHashInfos (b64decode : String → Option (List Nat))
    (sha256Fn sha512Fn : List Nat → List Nat) :
    List (String × String) → Except TufError (List ((List Nat → List Nat) × List Nat))
  | [] => .ok []
  | (algo, expectedHash) :: rest =>
    match b64decode expectedHash with
    | none => .error .invalidHashEncoding
    | some valid =>
      match getHasher sha256Fn sha512Fn algo with
      | .error e => .error e
      | .ok hashFunc =>
        match collectHashInfos b64decode sha256Fn sha512Fn rest with
        | .error e => .error e
        | .ok infos => .ok ((hashFunc, valid) :: infos)

/-- Comparison loop of FileIntegrityMeta.verify (fim.go): every digest function's
output over the consumed stream must equal its decoded declared digest. -/
def checkHashes (stream : List Nat) :
    List ((List Nat → List Nat) × List Nat) → Except TufError Unit
  | [] => .ok ()
  | (hashFunc, valid) :: rest =>
    if hashFunc stream ≠ valid then .error .hashIncorrect
    else checkHashes stream rest

/-- Verify (fim.go `FileIntegrityMeta.verify`): build the digesters for every
declared hash (failing on unknown algorithms), consume the stream once, check
the observed length against the declared length, then check every digest.
The streaming tee is modelled by applying each digest function to the whole
consumed stream. -/
def FileIntegrityMeta.verify (b64decode : String → Option (List Nat))
    (sha256Fn sha512Fn : List Nat → List Nat)
    (fim : FileIntegrityMeta) (stream : List Nat) : Except TufError Unit :=
  match collectHashInfos b64decode sha256Fn sha512Fn fim.hashes with
  | .error e => .error e
  | .ok hashInfos =>
    if (stream.length : Int) ≠ fim.length then .error .lengthIncorrect
    else checkHashes stream hashInfos

/-- DelegationRole (roles): delegated role name, signing threshold, key ids,
and path patterns. -/
structure DelegationRole where
  name : String
  threshold : Int
  keyIDs : List String
  paths : List String
  deriving DecidableEq, Repr

/-- Role entry of the root role's `roles` map. -/
structure RoleInfo where
  keyIDs : List String
  threshold : Int
  deriving DecidableEq, Repr

/-- Delegations block of a signed targets body. -/
structure Delegations where
  keys : List (String × Key)
  roles : List DelegationRole
  deriving DecidableEq, Repr

/-- SignedTarget: signed body of a targets role. -/
structure SignedTarget where
  version : Int
  expires : Int
  targets : List (String × FileIntegrityMeta)
  delegations : Delegations
  deriving DecidableEq, Repr

/-- Targets role envelope, including the bookkeeping `delegateRole` field. -/
structure Targets where
  signed : SignedTarget
  signatures : List Signature
  delegateRole : String := ""
  deriving DecidableEq, Repr

/-- RootTarget (structures file, `part_009`): the root targets role plus the
role lookup map, the path map (highest-precedence owner only) and the preorder
precedence list. -/
structure RootTarget where
  targets : Targets
  targetLookup : List (String × Targets)
  paths : List (String × FileIntegrityMeta)
  targetPrecedence : List Targets
  deriving DecidableEq, Repr

/-- Path-insertion loop of RootTarget.append: each target path is added only
if no entry for it exists yet (an earlier, higher-precedence delegate wins). -/
def appendPaths (paths : List (String × FileIntegrityMeta)) :
    List (String × FileIntegrityMeta) → List (String × FileIntegrityMeta)
  | [] => paths
  | (targetName, fim) :: rest =>
    match alookup targetName paths with
    | some _ => appendPaths paths rest
    | none => appendPaths (paths ++ [(targetName, fim)]) rest

/-- Append (structures file, `part_009`): record the delegate role name on the
target, register it in the lookup map, push it onto the precedence list and
merge its declared paths, earlier delegates winning. -/
def RootTarget.append (rt : RootTarget) (roleName : String) (targ : Targets) : RootTarget :=
  let targ := { targ with delegateRole := roleName }
  { rt with
    targetLookup := ainsert roleName targ rt.targetLookup
    targetPrecedence := rt.targetPrecedence ++ [targ]
    paths := appendPaths rt.paths targ.signed.targets }

/-- RootTarget as initialized at the top of targetTreeBuilder (repo.go), before
any append. -/
def initialRootTarget (targ : Targets) : RootTarget :=
  { targets := targ, targetLookup := [], paths := [], targetPrecedence := [] }

/-- Fold a sequence of append calls over the freshly initialized RootTarget. -/
def appendAll (targ : Targets) (calls : List (String × Targets)) : RootTarget :=
  calls.foldl (fun rt (r, t) => rt.append r t) (initialRootTarget targ)

/-- Specification-side owner function: the FIM declared for `p` by the earliest
element of the list that declares `p` at all (spec §4.5 "earlier wins"). -/
def firstDeclaredFim (p : String) : List Targets → Option FileIntegrityMeta
  | [] => none
  | t :: rest =>
    match alookup p t.signed.targets with
    | some fim => some fim
    | none => firstDeclaredFim p rest

/-- Specification-side elementwise FIM equality (spec §3: "Equality is
elementwise"): equal lengths and, for every algorithm, equal declared digests. -/
def FimElementwiseEq (f g : FileIntegrityMeta) : Prop :=
  f.length = g.length ∧ ∀ a : String, alookup a f.hashes = alookup a g.hashes

/-- Changed-path loop of getChangedPaths (tuf.go): a path from the notary view
is collected when it is absent locally or its FIM differs. -/
def changedLoop (localPaths : List (String × FileIntegrityMeta)) :
    List (String × FileIntegrityMeta) → List String
  | [] => []
  | (targetName, fim) :: rest =>
    match alookup targetName localPaths with
    | none => targetName :: changedLoop localPaths rest
    | some lfim =>
      if ¬ fim.Equal lfim then targetName :: changedLoop localPaths rest
      else changedLoop localPaths rest

/-- getChangedPaths (tuf.go): the targets (paths) of the notary RootTarget that
are new or whose FIM changed relative to the local RootTarget. -/
def getChangedPaths (localRT fromNotary : RootTarget) : List String :=
  changedLoop localRT.paths fromNotary.paths

/-- SignedRoot: signed body of the root role. -/
structure SignedRoot where
  version : Int
  expires : Int
  keys : List (String × Key)
  roles : List (String × RoleInfo)
  deriving DecidableEq, Repr

/-- Root role envelope. -/
structure Root where
  signed : SignedRoot
  signatures : List Signature
  deriving DecidableEq, Repr

/-- SignedSnapshot: signed body of the snapshot role. -/
structure SignedSnapshot where
  version : Int
  expires : Int
  meta : List (String × FileIntegrityMeta)
  deriving DecidableEq, Repr

/-- Snapshot role envelope. -/
structure Snapshot where
  signed : SignedSnapshot
  signatures : List Signature
  deriving DecidableEq, Repr

/-- SignedTimestamp: signed body of the timestamp role. -/
structure SignedTimestamp where
  version : Int
  expires : Int
  meta : List (String × FileIntegrityMeta)
  deriving DecidableEq, Repr

/-- Timestamp role envelope. -/
structure Timestamp where
  signed : SignedTimestamp
  signatures : List Signature
  deriving DecidableEq, Repr

/-- Outcome of one cryptographic signature verification (`verifier.verify`):
success, the retryable errSignatureCheckFailed, or any other failure. -/
inductive VerifyOutcome
  | ok
  | checkFailed
  | failed
  deriving DecidableEq, Repr

/-- Abstract signature verifier factory: `newVerifier(method)` either yields a
verify function over (canonical signed bytes, key, signature) or fails.  The
signed body itself stands for its canonical JSON bytes. -/
def VerifierFor (α : Type) := String → Option (α → Key → Signature → VerifyOutcome)

/-- Signature loop of verifySignatures (tuf.go): skip signatures whose key is
unknown, abort on verifier-creation or unexpected errors, skip cryptographic
check failures, count successes and succeed exactly when the count reaches the
threshold. -/
def verifyLoop (verifier : VerifierFor α) (signedBody : α)
    (keys : List (String × Key)) (threshold : Int) :
    List Signature → Int → Except TufError Unit
  | [], _ => .error .signatureThresholdNotMet
  | sig :: rest, verified =>
    match alookup sig.keyID keys with
    | none => verifyLoop verifier signedBody keys threshold rest verified
    | some key =>
      match verifier sig.signingMethod with
      | none => .error .verifierCreation
      | some vf =>
        match vf signedBody key sig with
        | .checkFailed => verifyLoop verifier signedBody keys threshold rest verified
        | .failed => .error .verificationFailure
        | .ok =>
          if verified + 1 = threshold then .ok ()
          else verifyLoop verifier signedBody keys threshold rest (verified + 1)

/-- verifySignatures (tuf.go): reject non-positive thresholds, then run the
signature loop with a zero verified count. -/
def verifySignatures (verifier : VerifierFor α) (signedBody : α)
    (keys : List (String × Key)) (sigs : List Signature) (threshold : Int) :
    Except TufError Unit :=
  if threshold ≤ 0 then .error .thresholdNotPositive
  else verifyLoop verifier signedBody keys threshold sigs 0

/-- getKeys (tuf.go): restrict the root's key map to the keys referenced by the
given signatures. -/
def getKeys (r : Root) (sigs : List Signature) : List (String × Key) :=
  sigs.foldl
    (fun result sig =>
      match alookup sig.keyID r.signed.keys with
      | some k => ainsert sig.keyID k result
      | none => result)
    []

/-- Environment of one refreshSnapshot run (tuf.go, clock-based variant): the
values produced by its effectful subcalls.  `notarySnapshotFetch` stands for
`rs.notary.snapshot(ssOpts...)`, already bounded by the timestamp-declared FIM
(option construction and hash testers happen inside the call); `localSnapshot`
and `trustedTargets` stand for the local-repository reads; `now` is the
injected clock. -/
structure SnapshotRefreshEnv where
  verifier : VerifierFor SignedSnapshot
  notarySnapshotFetch : FileIntegrityMeta → Except TufError Snapshot
  localSnapshot : Except TufError Snapshot
  trustedTargets : Except TufError RootTarget
  now : Int

/-- Delegate-version loop of refreshSnapshot (tuf.go): every previously
persisted role in the trusted RootTarget's lookup map must not exceed the new
snapshot's version. -/
def delegateRollbackCheck (current : Snapshot) :
    List (String × Targets) → Except TufError Unit
  | [] => .ok ()
  | (_, target) :: rest =>
    if target.signed.version > current.signed.version then .error .rollbackAttack
    else delegateRollbackCheck current rest

/-- refreshSnapshot (tuf.go, clock-based variant): obtain the snapshot FIM from
the timestamp meta, fetch the remote snapshot bounded by it, verify signatures
under the root snapshot role threshold, check rollback against the previous
snapshot, against the previously persisted root targets and against every
previously persisted delegate, then check for a freeze attack. -/
def refreshSnapshot (env : SnapshotRefreshEnv) (root : Root) (timestamp : Timestamp) :
    Except TufError Snapshot :=
  match alookup "snapshot" timestamp.signed.meta with
  | none => .error .metaMissing
  | some fim =>
    match env.notarySnapshotFetch fim with
    | .error _ => .error .fetchFailed
    | .ok current =>
      match verifySignatures env.verifier current.signed
          (getKeys root current.signatures) current.signatures
          ((alookup "snapshot" root.signed.roles).getD ⟨[], 0⟩).threshold with
      | .error e => .error e
      | .ok _ =>
        match env.localSnapshot with
        | .error _ => .error .localReadFailed
        | .ok previous =>
          if previous.signed.version > current.signed.version then .error .rollbackAttack
          else
            match env.trustedTargets with
            | .error _ => .error .localReadFailed
            | .ok trustedTargets =>
              if trustedTargets.targets.signed.version > current.signed.version then
                .error .rollbackAttack
              else
                match delegateRollbackCheck current trustedTargets.targetLookup with
                | .error e => .error e
                | .ok _ =>
                  if env.now > current.signed.expires then .error .freezeAttack
                  else .ok current

/-- Environment of one repoMan.refresh run (tuf.go, clock-based variant): the
results of its four refresh stages and of the save.  Root, timestamp and
snapshot refreshes are abstracted to their produced values; the targets stage
is spelled out below because the claim under scrutiny concerns it. -/
structure RefreshEnv where
  rootRefresh : Except TufError Root
  timestampRefresh : Except TufError Timestamp
  snapshotRefresh : Except TufError Snapshot
  localTargets : Except TufError RootTarget
  notaryTargets : Except TufError RootTarget
  saveResult : Except TufError Unit

/-- refreshTargets (tuf.go, clock-based variant), reporting shape: read the
previously persisted RootTarget, build the new one via the notary fetcher, and
return it together with the changed paths. -/
def refreshTargets (env : RefreshEnv) : Except TufError (RootTarget × List String) :=
  match env.localTargets with
  | .error _ => .error .localReadFailed
  | .ok previous =>
    match env.notaryTargets with
    | .error e => .error e
    | .ok current => .ok (current, getChangedPaths previous current)

/-- Refresh (tuf.go, clock-based variant `repoMan.refresh`): run the four
stages and the save; report `latest` as `len(changed) == 0`. -/
def refresh (env : RefreshEnv) : Except TufError Bool :=
  match env.rootRefresh with
  | .error e => .error e
  | .ok _root =>
    match env.timestampRefresh with
    | .error e => .error e
    | .ok _timestamp =>
      match env.snapshotRefresh with
      | .error e => .error e
      | .ok _snapshot =>
        match refreshTargets env with
        | .error e => .error e
        | .ok (_targets, changed) =>
          match env.saveResult with
          | .error _ => .error .saveFailed
          | .ok _ => .ok (changed.length = 0)

/-- maxDelegationCount (repo.go). -/
def maxDelegationCount : Nat := 50

/-- Mutable state of a notaryTargetFetcher (remote_repo.go): the visited-role
set, the accumulated verification keys and role records.  `requests` is an
embedding artifact logging, in order, every network fetch the fetcher issued
(`client.Get` on a role URL); the Go struct has no such field. -/
structure FetcherState where
  seen : List String
  keys : List (String × Key)
  roles : List (String × RoleInfo)
  requests : List String

/-- Environment of a notaryTargetFetcher (remote_repo.go): `remoteRead name`
stands for the HTTP GET of the role, the snapshot-FIM length/hash validation
and the JSON decode (fetch lines covering `client.Get` through
`json.NewDecoder ... Decode`), yielding the decoded Targets on success;
`localRootTarget` and `now` feed compareToExistingTarget. -/
structure FetcherEnv where
  remoteRead : String → Except TufError Targets
  verifier : VerifierFor SignedTarget
  localRootTarget : RootTarget
  now : Int

/-- compareToExistingTarget (remote_repo.go): when a previous version of the
delegate exists in the trusted RootTarget, check it for rollback (by version)
and freeze (by expiry). -/
def compareToExistingTarget (env : FetcherEnv) (delegate : String) (target : Targets) :
    Except TufError Unit :=
  match alookup delegate env.localRootTarget.targetLookup with
  | none => .ok ()
  | some previous =>
    if previous.signed.version > target.signed.version then .error .rollbackAttack
    else if env.now > target.signed.expires then .error .freezeAttack
    else .ok ()

/-- saveKeysForRoles (remote_repo.go): merge a validated target's delegation
keys and delegation roles into the fetcher's accumulators. -/
def saveKeysForRoles (st : FetcherState) (target : Targets) : FetcherState :=
  { st with
    keys := target.signed.delegations.keys.foldl (fun ks (id, key) => ainsert id key ks) st.keys
    roles := target.signed.delegations.roles.foldl
      (fun rs delegate => ainsert delegate.name ⟨delegate.keyIDs, delegate.threshold⟩ rs) st.roles }

/-- Fetch (remote_repo.go `notaryTargetFetcher.fetch`): reject once more than
maxDelegationCount roles are seen, reject revisits, record the role as seen,
issue the network read, look up the role's threshold record, verify signatures
with the accumulated keys, compare against the previously trusted version, and
finally bank the delegation keys/roles for the children.  State mutations
survive failure, as they do through the Go pointer receiver. -/
def fetcherFetch (env : FetcherEnv) (st : FetcherState) (delegate : String) :
    Except TufError Targets × FetcherState :=
  if st.seen.length > maxDelegationCount then (.error .tooManyDelegates, st)
  else if delegate ∈ st.seen then (.error .targetSeen, st)
  else
    let st := { st with seen := delegate :: st.seen }
    -- the HTTP GET happens at this point; log it
    let st := { st with requests := st.requests ++ [delegate] }
    match env.remoteRead delegate with
    | .error e => (.error e, st)
    | .ok target =>
      match alookup delegate st.roles with
      | none => (.error .roleInfoMissing, st)
      | some roleInfo =>
        match verifySignatures env.verifier target.signed st.keys target.signatures
            roleInfo.threshold with
        | .error e => (.error e, st)
        | .ok _ =>
          match compareToExistingTarget env delegate target with
          | .error e => (.error e, st)
          | .ok _ => (.ok target, saveKeysForRoles st target)

/-- Key-collection loop of newNotaryTargetFetcher (remote_repo.go): every key
id of the root's targets role must resolve in the root key map. -/
def collectRootTargetKeys (rootRole : Root) :
    List String → List (String × Key) → Except TufError (List (String × Key))
  | [], acc => .ok acc
  | id :: rest, acc =>
    match alookup id rootRole.signed.keys with
    | none => .error .keyMissing
    | some key => collectRootTargetKeys rootRole rest (ainsert id key acc)

/-- newNotaryTargetFetcher (remote_repo.go): seed the fetcher with the root's
targets-role keys and role record.  A missing role entry yields Go's zero
value, as in `settings.rootRole.Signed.Roles[roleTargets]`. -/
def newNotaryTargetFetcher (rootRole : Root) : Except TufError FetcherState :=
  match collectRootTargetKeys rootRole
      ((alookup "targets" rootRole.signed.roles).getD ⟨[], 0⟩).keyIDs [] with
  | .error e => .error e
  | .ok keys =>
    .ok ⟨[], keys, [("targets", (alookup "targets" rootRole.signed.roles).getD ⟨[], 0⟩)], []⟩

/-- Child loop of getDelegatedTarget (repo.go), parametrized by the recursive
step: visit each delegation role; `errTargetSeen` skips that branch and
continues with the next sibling, any other error aborts. -/
def delegationChildren
    (step : RootTarget → FetcherState → String → Except TufError RootTarget × FetcherState)
    (root : RootTarget) (st : FetcherState) :
    List DelegationRole → Except TufError RootTarget × FetcherState
  | [] => (.ok root, st)
  | child :: rest =>
    match step root st child.name with
    | (.error e, st') =>
      if e = .targetSeen then delegationChildren step root st' rest
      else (.error e, st')
    | (.ok root', st') => delegationChildren step root' st' rest

/-- getDelegatedTarget (repo.go): fetch the role, append it to the RootTarget,
then recurse over its delegation roles in preorder through the child loop.
`fuel` is an embedding artifact bounding the recursion depth (the Go recursion
is bounded dynamically by the visited-set guard). -/
def getDelegatedTarget (env : FetcherEnv) :
    Nat → RootTarget → FetcherState → String →
    Except TufError RootTarget × FetcherState
  | 0, _, st, _ => (.error .outOfFuel, st)
  | fuel + 1, root, st, roleName =>
    match fetcherFetch env st roleName with
    | (.error e, st) => (.error e, st)
    | (.ok target, st) =>
      delegationChildren (getDelegatedTarget env fuel) (root.append roleName target) st
        target.signed.delegations.roles

/-- Top-level delegation loop of targetTreeBuilder (repo.go): unlike the child
loop of getDelegatedTarget, any error — `errTargetSeen` included — aborts the
whole build. -/
def builderTopLoop (env : FetcherEnv) (fuel : Nat) (root : RootTarget)
    (st : FetcherState) :
    List DelegationRole → Except TufError RootTarget × FetcherState
  | [] => (.ok root, st)
  | delegation :: rest =>
    match getDelegatedTarget env fuel root st delegation.name with
    | (.error e, st') => (.error e, st')
    | (.ok root', st') => builderTopLoop env fuel root' st' rest

/-- targetTreeBuilder (repo.go): fetch the top `targets` role, initialize the
RootTarget and append the top role, then walk its delegations in preorder. -/
def targetTreeBuilder (env : FetcherEnv) (fuel : Nat) (st : FetcherState) :
    Except TufError RootTarget × FetcherState :=
  match fetcherFetch env st "targets" with
  | (.error e, st) => (.error e, st)
  | (.ok targ, st) =>
    let root := (initialRootTarget targ).append "targets" targ
    builderTopLoop env fuel root st targ.signed.delegations.roles

/-- Complete remote targets read as refreshTargets performs it: seed the
fetcher from the root role (newNotaryTargetFetcher) and run targetTreeBuilder.
A seeding failure leaves an empty request log. -/
def runTargetTreeBuild (rootRole : Root) (env : FetcherEnv) (fuel : Nat) :
    Except TufError RootTarget × FetcherState :=
  match newNotaryTargetFetcher rootRole with
  | .error e => (.error e, ⟨[], [], [], []⟩)
  | .ok st => targetTreeBuilder env fuel st

/-- Outcome of the ping HTTP GET: a transport failure or a status code. -/
inductive PingOutcome
  | transportError
  | response (statusCode : Nat)
  deriving DecidableEq, Repr

/-- Ping (remote_repo.go `notaryRepo.ping`): issue GET on the health endpoint;
a transport error or any status other than 200 reports the server unreachable. -/
def ping (outcome : PingOutcome) : Except TufError Unit :=
  match outcome with
  | .transportError => .error .fetchFailed
  | .response statusCode =>
    if statusCode ≠ 200 then .error .statusNotOk
    else .ok ()

/-- Tester application loop of getRole (remote_repo.go): run every configured
tester over the buffered body, failing on the first rejection. -/
def runTesters (buff : List Nat) :
    List (List Nat → Except TufError Unit) → Except TufError Unit
  | [] => .ok ()
  | ts :: rest =>
    match ts buff with
    | .error e => .error e
    | .ok _ => runTesters buff rest

/-- Body-handling path of getRole (remote_repo.go): the read limit is the
caller's expectedLength when positive, else the configured maximum; 404 maps
to errNotFound, while any other non-200 status returns
`errors.Wrap(err, ...)` with a nil err — i.e. success with nothing read (a
quirk kept faithfully).  On 200 the body is read through `io.LimitReader`
(a prefix take), then every tester runs over the buffer.  The subsequent
JSON decode is outside this claim and elided; the validated buffer is
returned instead. -/
def getRoleBody (maxResponseSize expectedLength : Int) (status : Nat)
    (body : List Nat) (testers : List (List Nat → Except TufError Unit)) :
    Except TufError (List Nat) :=
  let limit := if expectedLength > 0 then expectedLength else maxResponseSize
  if status ≠ 200 then
    if status = 404 then .error .notFound else .ok []
  else
    let buff := body.take limit.toNat
    match runTesters buff testers with
    | .error e => .error e
    | .ok _ => .ok buff

/-- downloadTarget (tuf.go, clock-based variant `repoMan.downloadTarget`):
resolve the target's FIM from the trusted paths, require HTTP 200, then
stream the body through `io.LimitReader(resp.Body, fim.Length)` (a prefix
take of `fim.length` bytes) into the FIM verifier; the tee into the caller's
writer does not affect acceptance. -/
def downloadTarget (b64decode : String → Option (List Nat))
    (sha256Fn sha512Fn : List Nat → List Nat)
    (paths : List (String × FileIntegrityMeta)) (target : String)
    (status : Nat) (body : List Nat) : Except TufError Unit :=
  match alookup target paths with
  | none => .error .noSuchTarget
  | some fim =>
    if status ≠ 200 then .error .statusNotOk
    else fim.verify b64decode sha256Fn sha512Fn (body.take fim.length.toNat)

/-- Literal-word regular expression: the concatenation of the word's characters. -/
def rlit (s : String) : RegularExpression Char :=
  (s.data.map RegularExpression.char).foldr (· * ·) 1

/-- Character-class regular expression: the alternation of the listed characters. -/
def rcls (cs : List Char) : RegularExpression Char :=
  (cs.map RegularExpression.char).foldr (· + ·) 0

/-- Characters matched by the class `[0-9]`. -/
def digitChars : List Char := ['0', '1', '2', '3', '4', '5', '6', '7', '8', '9']

/-- Characters matched by the class `[1-9]`. -/
def nonzeroDigitChars : List Char := ['1', '2', '3', '4', '5', '6', '7', '8', '9']

/-- One-or-more repetition: regexp `x+` stands for an `x` followed by `x*`. -/
def rplus (r : RegularExpression Char) : RegularExpression Char := r * r.star

/-- roleRegex (repo.go): the pattern
`^root$|^[1-9]*[0-9]+\.root$|^snapshot$|^timestamp$|^targets$`.
Every alternative is anchored on both sides, so Go's substring MatchString
holds exactly when the whole string matches one alternative; the anchors are
therefore dropped and matching is whole-string. -/
def roleRegexSrc : RegularExpression Char :=
  rlit "root" +
  (rcls nonzeroDigitChars).star * (rplus (rcls digitChars) * rlit ".root") +
  rlit "snapshot" + rlit "timestamp" + rlit "targets"

/-- Role-name pattern as the specification states it:
`^root$|^[1-9][0-9]*\.root$|^snapshot$|^timestamp$|^targets$`. -/
def roleRegexSpec : RegularExpression Char :=
  rlit "root" +
  rcls nonzeroDigitChars * ((rcls digitChars).star * rlit ".root") +
  rlit "snapshot" + rlit "timestamp" + rlit "targets"

/-- validateRole (repo.go): a role name is valid when roleRegex matches it. -/
def validateRole (r : String) : Bool := roleRegexSrc.rmatch r.data

/-- Calendar instant as Go's formatter consumes it (UTC, seconds resolution);
`yday` is the one-based day of the year, used only by the `002` layout chunk. -/
structure GoTime where
  year : Nat
  month : Nat
  day : Nat
  hour : Nat
  minute : Nat
  second : Nat
  yday : Nat
  deriving DecidableEq, Repr

/-- Zero-pad a decimal rendering to a width, as Go's `appendInt(b, v, w)` does. -/
def padTo (w : Nat) (n : Nat) : String :=
  let s := toString n
  String.mk (List.replicate (w - s.length) '0') ++ s

/-- Twelve-hour clock value used by the `3` / `03` layout chunks. -/
def hour12 (t : GoTime) : Nat :=
  let h := t.hour % 12
  if h = 0 then 12 else h

/-- Format (Go `time.Time.Format` restricted to the layout chunks reachable
from all-digit layout strings, the only ones this program produces): scan the
layout for the next reference-time chunk exactly as Go's `nextStdChunk` does —
`2006` (4-digit year), `15` (2-digit hour), `01`…`06` (2-digit month, day,
12-hour, minute, second, 2-digit year), `002` (3-digit day of year), and the
unpadded `1`, `2`, `3`, `4`, `5` — and copy every other character literally. -/
def goFormat (t : GoTime) : List Char → String
  | [] => ""
  | '2' :: '0' :: '0' :: '6' :: rest => padTo 4 t.year ++ goFormat t rest
  | '1' :: '5' :: rest => padTo 2 t.hour ++ goFormat t rest
  | '0' :: '1' :: rest => padTo 2 t.month ++ goFormat t rest
  | '0' :: '2' :: rest => padTo 2 t.day ++ goFormat t rest
  | '0' :: '3' :: rest => padTo 2 (hour12 t) ++ goFormat t rest
  | '0' :: '4' :: rest => padTo 2 t.minute ++ goFormat t rest
  | '0' :: '5' :: rest => padTo 2 t.second ++ goFormat t rest
  | '0' :: '6' :: rest => padTo 2 (t.year % 100) ++ goFormat t rest
  | '0' :: '0' :: '2' :: rest => padTo 3 t.yday ++ goFormat t rest
  | '1' :: rest => toString t.month ++ goFormat t rest
  | '2' :: rest => toString t.day ++ goFormat t rest
  | '3' :: rest => toString (hour12 t) ++ goFormat t rest
  | '4' :: rest => toString t.minute ++ goFormat t rest
  | '5' :: rest => toString t.second ++ goFormat t rest
  | c :: rest => String.mk [c] ++ goFormat t rest

/-- backupFileTimeTagFormat (persistence.go). -/
def backupFileTimeTagFormat : String := "20060102150405"

/-- Backup tag exactly as saveTufRepository (persistence.go) computes it:
`time.Now().UTC().Format(time.Now().Format(backupFileTimeTagFormat))` — the
inner Format renders the current time with the layout, and its OUTPUT is then
used as the layout of the outer Format.  Both calls are modelled at the same
instant in UTC. -/
def saveBackupTag (t : GoTime) : String :=
  goFormat t (goFormat t backupFileTimeTagFormat.data).data

/-- Tag as the specification requires it: the current UTC time under the
single layout `YYYYMMDDhhmmss`. -/
def specBackupTag (t : GoTime) : String := goFormat t backupFileTimeTagFormat.data

/-- Membership in the Go character class `[0-9]`. -/
def isDigitChar (c : Char) : Bool := decide ('0' ≤ c ∧ c ≤ '9')

/-- backupMatcher (persistence.go): the pattern `\.[0-9]{14}\.json$` — the file
name ends in a dot, exactly fourteen digits, then `.json`. -/
def backupMatcherB (s : String) : Bool :=
  let r := s.data.reverse
  r.take 5 == ['n', 'o', 's', 'j', '.'] &&
  ((r.drop 5).take 14).length == 14 &&
  ((r.drop 5).take 14).all isDigitChar &&
  (r.drop 19).head? == some '.'

/-- Fixture: a verifier for which every signature verifies (the cryptographic
primitives are out of scope; concrete runs need some verifier value). -/
def trivialVerifier : VerifierFor α := fun _ => some fun _ _ _ => .ok

/-- Fixture: the single signing key of the delegation-tree test repositories. -/
def chainKey : Key := ⟨"ecdsa", "pub"⟩

/-- Fixture: a signature by `chainKey`. -/
def chainSig : Signature := ⟨"k1", "ecdsa", "sigvalue"⟩

/-- Fixture: a root role declaring `chainKey` for the targets role, threshold 1. -/
def chainRoot : Root :=
  ⟨⟨1, 1000, [("k1", chainKey)], [("targets", ⟨["k1"], 1⟩)]⟩, [chainSig]⟩

/-- Fixture: a targets role delegating to the named children, threshold 1 each. -/
def mkTargets (children : List String) : Targets :=
  ⟨⟨1, 1000, [], ⟨[], children.map fun n => ⟨n, 1, ["k1"], []⟩⟩⟩, [chainSig], ""⟩

/-- Fixture: name of the i-th delegate of the chain repositories. -/
def dName (i : Nat) : String := "d" ++ toString i

/-- Fixture: role table of a chain repository — the top targets role delegates
to `d1`, each `di` delegating to `d(i+1)`, up to `dcount`; `count + 1` roles in
total. -/
def chainTable (count : Nat) : List (String × Targets) :=
  ("targets", mkTargets (if count = 0 then [] else [dName 1])) ::
    (List.range count).map fun j =>
      (dName (j + 1), mkTargets (if j + 1 < count then [dName (j + 2)] else []))

/-- Fixture: remote responses of the chain repository of `count + 1` roles. -/
def chainResponses (count : Nat) (s : String) : Except TufError Targets :=
  match alookup s (chainTable count) with
  | some t => .ok t
  | none => .error .notFound

/-- Fixture: a previously trusted RootTarget with no recorded roles or paths. -/
def emptyLocalRoot : RootTarget := ⟨⟨⟨0, 0, [], ⟨[], []⟩⟩, [], ""⟩, [], [], []⟩

/-- Fixture: fetcher environment serving the chain repository of `count + 1` roles. -/
def chainEnv (count : Nat) : FetcherEnv :=
  ⟨chainResponses count, trivialVerifier, emptyLocalRoot, 0⟩

/-- Fixture: delegation-tree build over 51 roles (top targets plus d1…d50). -/
def run51 : Except TufError RootTarget × FetcherState :=
  runTargetTreeBuild chainRoot (chainEnv 50) 100

/-- Fixture: delegation-tree build over 52 roles (top targets plus d1…d51). -/
def run52 : Except TufError RootTarget × FetcherState :=
  runTargetTreeBuild chainRoot (chainEnv 51) 100

/-- Fixture: responses of a repository where the top targets role delegates to
`a`, and `a` delegates first back to `targets` (a revisit) and then to `b`. -/
def skipResponses (s : String) : Except TufError Targets :=
  if s = "targets" then .ok (mkTargets ["a"])
  else if s = "a" then .ok (mkTargets ["targets", "b"])
  else if s = "b" then .ok (mkTargets [])
  else .error .notFound

/-- Fixture: build over `skipResponses` — a delegate parent hits a revisit. -/
def runSkip : Except TufError RootTarget × FetcherState :=
  runTargetTreeBuild chainRoot ⟨skipResponses, trivialVerifier, emptyLocalRoot, 0⟩ 100

/-- Fixture: responses of a repository where the top targets role delegates to
`a` twice. -/
def rootDupResponses (s : String) : Except TufError Targets :=
  if s = "targets" then .ok (mkTargets ["a", "a"])
  else if s = "a" then .ok (mkTargets [])
  else .error .notFound

/-- Fixture: build over `rootDupResponses` — the revisit happens in the
top-level loop of targetTreeBuilder. -/
def runRootDup : Except TufError RootTarget × FetcherState :=
  runTargetTreeBuild chainRoot ⟨rootDupResponses, trivialVerifier, emptyLocalRoot, 0⟩ 100

/-- Success test of an Except value. -/
def isOkE : Except TufError α → Bool
  | .ok _ => true
  | .error _ => false

/-- Decidable equality of Except values, for concrete evaluations. -/
instance exceptDecEq {ε α : Type} [DecidableEq ε] [DecidableEq α] :
    DecidableEq (Except ε α)
  | .ok a, .ok b =>
    if h : a = b then .isTrue (by rw [h]) else .isFalse fun hc => h (Except.ok.inj hc)
  | .ok _, .error _ => .isFalse fun hc => Except.noConfusion hc
  | .error _, .ok _ => .isFalse fun hc => Except.noConfusion hc
  | .error e, .error f =>
    if h : e = f then .isTrue (by rw [h]) else .isFalse fun hc => h (Except.error.inj hc)

/-- Reachability as the specification words it (spec §4.4: "accepts `2xx` or
`401` as reachable, anything else as unreachable"), for comparison with the
embedded ping. -/
def specReachable (statusCode : Nat) : Bool :=
  (200 ≤ statusCode && statusCode ≤ 299) || statusCode == 401

/-- Invariant of the fetcher state maintained by every fetch: the request log
has no duplicates, logged roles are exactly the seen ones (same count, log
contained in the set), and at most `maxDelegationCount + 1` roles are seen. -/
def FetcherInv (st : FetcherState) : Prop :=
  st.requests.Nodup ∧ (∀ n ∈ st.requests, n ∈ st.seen) ∧
    st.requests.length = st.seen.length ∧ st.seen.length ≤ maxDelegationCount + 1

/-- Fixture: FIM used by the changed-path witness. -/
def wFim : FileIntegrityMeta := ⟨[("sha256", "x")], 3⟩

/-- Fixture: notary-side RootTarget of the changed-path witness. -/
def wNotaryRT : RootTarget := { emptyLocalRoot with paths := [("a", wFim)] }

/-- Fixture: refresh environment of the changed-path witness. -/
def wRefreshEnv : RefreshEnv :=
  ⟨.ok chainRoot, .ok ⟨⟨0, 0, []⟩, []⟩, .ok ⟨⟨0, 0, []⟩, []⟩,
    .ok emptyLocalRoot, .ok wNotaryRT, .ok ()⟩

/-- Fixture: root role declaring a snapshot role with threshold 1, for the
snapshot-refresh witness. -/
def wSnapRoot : Root :=
  ⟨⟨1, 1000, [("k1", chainKey)], [("snapshot", ⟨["k1"], 1⟩)]⟩, [chainSig]⟩

/-- Fixture: timestamp whose meta binds the snapshot FIM. -/
def wSnapTimestamp : Timestamp := ⟨⟨1, 1000, [("snapshot", wFim)]⟩, []⟩

/-- Fixture: remote snapshot at version 3. -/
def wCurrentSnap : Snapshot := ⟨⟨3, 1000, []⟩, [chainSig]⟩

/-- Fixture: previously persisted snapshot at version 1. -/
def wPrevSnap : Snapshot := ⟨⟨1, 1000, []⟩, []⟩

/-- Fixture: previously persisted targets role at version 5 (newer than the
remote snapshot — a rollback situation). -/
def wTrusted5 : Targets := ⟨⟨5, 1000, [], ⟨[], []⟩⟩, [], ""⟩

/-- Fixture: trusted RootTarget whose root targets and lookup run at version 5. -/
def wTrustedRT : RootTarget := ⟨wTrusted5, [("targets", wTrusted5)], [], [wTrusted5]⟩

/-- Fixture: snapshot-refresh environment serving version 3 against trusted
version 5. -/
def wSnapEnv : SnapshotRefreshEnv :=
  ⟨trivialVerifier, fun _ => .ok wCurrentSnap, .ok wPrevSnap, .ok wTrustedRT, 0⟩

/-- Fixture: base64 decoder stand-in mapping every digest string to [6]. -/
def b64W : String → Option (List Nat) := fun _ => some [6]

/-- Fixture: digest-function stand-in summing the stream modulo 256. -/
def hashW : List Nat → List Nat := fun l => [l.foldl (· + ·) 0 % 256]

/-! Association-list lemmas shared by the claim proofs. -/

theorem alookup_eq_none_iff (p : String) (l : List (String × α)) :
    alookup p l = none ↔ p ∉ akeys l := by
  induction l with
  | nil => simp [alookup, akeys]
  | cons hd tl ih =>
    obtain ⟨k, v⟩ := hd
    by_cases h : k = p
    · subst h; simp [alookup, akeys]
    · simp [alookup, akeys, h, ih, Ne.symm h]

theorem alookup_mem (p : String) (l : List (String × α)) (v : α)
    (h : alookup p l = some v) : (p, v) ∈ l := by
  induction l with
  | nil => simp [alookup] at h
  | cons hd tl ih =>
    obtain ⟨k, w⟩ := hd
    by_cases hk : k = p
    · subst hk
      simp [alookup] at h
      subst h
      exact List.mem_cons_self _ _
    · simp [alookup, hk] at h
      exact List.mem_cons_of_mem _ (ih h)

theorem alookup_of_mem_nodup (p : String) (l : List (String × α)) (v : α)
    (hnd : (akeys l).Nodup) (hmem : (p, v) ∈ l) : alookup p l = some v := by
  induction l with
  | nil => simp at hmem
  | cons hd tl ih =>
    obtain ⟨k, w⟩ := hd
    simp only [akeys, List.map_cons, List.nodup_cons] at hnd
    rcases List.mem_cons.mp hmem with heq | htl
    · obtain ⟨hk, hv⟩ := Prod.mk.injEq .. ▸ heq
      subst hk; subst hv
      simp [alookup]
    · have hne : k ≠ p := by
        intro hk
        subst hk
        exact hnd.1 (List.mem_map.mpr ⟨(k, v), htl, rfl⟩)
      simp [alookup, hne]
      exact ih hnd.2 htl

theorem alookup_isSome_iff (p : String) (l : List (String × α)) :
    (alookup p l).isSome ↔ p ∈ akeys l := by
  rcases h : alookup p l with _ | v
  · simp only [Option.isSome_none, Bool.false_eq_true, false_iff]
    exact (alookup_eq_none_iff p l).mp h
  · simp only [Option.isSome_some, true_iff]
    exact List.mem_map.mpr ⟨(p, v), alookup_mem _ _ _ h, rfl⟩

theorem alookup_append (p : String) (l₁ l₂ : List (String × α)) :
    alookup p (l₁ ++ l₂) =
      match alookup p l₁ with
      | some v => some v
      | none => alookup p l₂ := by
  induction l₁ with
  | nil => simp [alookup]
  | cons hd tl ih =>
    obtain ⟨k, v⟩ := hd
    by_cases h : k = p <;> simp [alookup, h, ih]

/-! Claim C6: reachability reported by ping. -/

/-- C6 (counterexample): the specification predicate calls statuses 401 and 204
reachable, but the embedded ping reports both as unreachable — the program
accepts only status 200. -/
theorem ping_spec_counterexample :
    specReachable 401 = true ∧ specReachable 204 = true ∧
    ping (.response 401) = .error .statusNotOk ∧
    ping (.response 204) = .error .statusNotOk := by
  decide

/-- C6 (amended): ping reports the Notary server as reachable (returns no
error) if and only if the health-endpoint response status is exactly 200;
every other status, and every transport error, is reported as unreachable. -/
theorem ping_ok_iff_status_200 (outcome : PingOutcome) :
    ping outcome = .ok () ↔ outcome = .response 200 := by
  cases outcome with
  | transportError => simp [ping]
  | response s =>
    by_cases h : s = 200 <;> simp [ping, h]

/-! Claim C9: the backup tag computed by saveTufRepository. -/

/-- C9: at 2025-10-11 09:30:45 UTC the double-Format tag computation of
saveTufRepository yields "1111451010100993045" instead of the required
14-digit "20251011093045"; the file name built from the code's tag does not
even match the backupMatcher pattern persistence.go itself uses to recognize
backups, while the spec-required tag does. -/
theorem backup_tag_double_format_bug :
    saveBackupTag ⟨2025, 10, 11, 9, 30, 45, 284⟩ = "1111451010100993045" ∧
    specBackupTag ⟨2025, 10, 11, 9, 30, 45, 284⟩ = "20251011093045" ∧
    saveBackupTag ⟨2025, 10, 11, 9, 30, 45, 284⟩ ≠
      specBackupTag ⟨2025, 10, 11, 9, 30, 45, 284⟩ ∧
    backupMatcherB ("root." ++ saveBackupTag ⟨2025, 10, 11, 9, 30, 45, 284⟩ ++ ".json")
      = false ∧
    backupMatcherB ("root." ++ specBackupTag ⟨2025, 10, 11, 9, 30, 45, 284⟩ ++ ".json")
      = true := by
  decide

/-! Claim C10: verifySignatures counts signatures, not keys. -/

theorem verifyLoop_replicate (verifier : VerifierFor α) (signedBody : α)
    (keys : List (String × Key)) (sig : Signature) (key : Key)
    (vf : α → Key → Signature → VerifyOutcome)
    (hkey : alookup sig.keyID keys = some key)
    (hvf : verifier sig.signingMethod = some vf)
    (hok : vf signedBody key sig = .ok) :
    ∀ (k : Nat) (v : Int), 1 ≤ k → v + k = threshold →
      verifyLoop verifier signedBody keys threshold (List.replicate k sig) v = .ok () := by
  intro k
  induction k with
  | zero => omega
  | succ k ih =>
    intro v _ hsum
    rw [List.replicate_succ]
    simp only [verifyLoop, hkey, hvf, hok]
    by_cases hk : k = 0
    · subst hk
      have : v + 1 = threshold := by push_cast at hsum; omega
      simp [this]
    · have hlt : v + 1 ≠ threshold := by push_cast at hsum; omega
      rw [if_neg hlt]
      exact ih (v + 1) (by omega) (by push_cast at hsum ⊢; omega)

/-- C10: verifySignatures counts valid signatures rather than distinct signing
keys: a signature list consisting of k copies of one key's valid signature
satisfies a threshold of k — each occurrence increments the verified count. -/
theorem verifySignatures_duplicate_signatures_meet_threshold
    (verifier : VerifierFor α) (signedBody : α) (keys : List (String × Key))
    (sig : Signature) (key : Key) (vf : α → Key → Signature → VerifyOutcome)
    (k : Nat) (hk : 1 ≤ k)
    (hkey : alookup sig.keyID keys = some key)
    (hvf : verifier sig.signingMethod = some vf)
    (hok : vf signedBody key sig = .ok) :
    verifySignatures verifier signedBody keys (List.replicate k sig) (k : Int) = .ok () := by
  unfold verifySignatures
  rw [if_neg (by omega)]
  exact verifyLoop_replicate verifier signedBody keys sig key vf hkey hvf hok k 0 hk
    (by omega)

/-- C10 (witness): three copies of one valid signature under one key meet a
threshold of three. -/
theorem verifySignatures_duplicate_signatures_meet_threshold_witness :
    verifySignatures (α := Unit) trivialVerifier () [("k1", chainKey)]
      (List.replicate 3 chainSig) ((3 : Nat) : Int) = .ok () :=
  verifySignatures_duplicate_signatures_meet_threshold trivialVerifier ()
    [("k1", chainKey)] chainSig chainKey (fun _ _ _ => .ok) 3 (by omega) rfl rfl rfl

/-! Claim C2: delegation-tree traversal guards. -/

theorem fetcherFetch_inv (env : FetcherEnv) (st : FetcherState) (name : String)
    (h : FetcherInv st) : FetcherInv (fetcherFetch env st name).2 := by
  obtain ⟨hnd, hsub, hlen, hbound⟩ := h
  unfold fetcherFetch
  by_cases hcount : st.seen.length > maxDelegationCount
  · simpa [hcount] using ⟨hnd, hsub, hlen, hbound⟩
  · by_cases hseen : name ∈ st.seen
    · simpa [hcount, hseen] using ⟨hnd, hsub, hlen, hbound⟩
    · have hreq : name ∉ st.requests := fun hmem => hseen (hsub name hmem)
      have hinv' : FetcherInv
          ⟨name :: st.seen, st.keys, st.roles, st.requests ++ [name]⟩ := by
        refine ⟨?_, ?_, ?_, ?_⟩
        · simpa [List.nodup_append] using ⟨hnd, hreq⟩
        · intro n hn
          rcases List.mem_append.mp hn with hn | hn
          · exact List.mem_cons_of_mem _ (hsub n hn)
          · simp only [List.mem_singleton] at hn
            subst hn
            exact List.mem_cons_self _ _
        · simp [hlen]
        · simp only [List.length_cons]
          omega
      rw [if_neg hcount, if_neg hseen]
      rcases hr : env.remoteRead name with e | target
      · simpa [hr] using hinv'
      · rcases hrole : alookup name st.roles with _ | roleInfo
        · simpa [hr, hrole] using hinv'
        · rcases hvs : verifySignatures env.verifier target.signed st.keys
            target.signatures roleInfo.threshold with e | u
          · simpa [hr, hrole, hvs] using hinv'
          · rcases hcmp : compareToExistingTarget env name target with e | u
            · simpa [hr, hrole, hvs, hcmp] using hinv'
            · simpa [hr, hrole, hvs, hcmp, saveKeysForRoles] using hinv'

theorem delegationChildren_inv
    (step : RootTarget → FetcherState → String → Except TufError RootTarget × FetcherState)
    (hstep : ∀ root st name, FetcherInv st → FetcherInv (step root st name).2) :
    ∀ (cs : List DelegationRole) (root : RootTarget) (st : FetcherState),
      FetcherInv st → FetcherInv (delegationChildren step root st cs).2 := by
  intro cs
  induction cs with
  | nil => intro root st h; simpa [delegationChildren] using h
  | cons c cs ih =>
    intro root st h
    rcases hcall : step root st c.name with ⟨res, st'⟩
    have hst' : FetcherInv st' := by
      have := hstep root st c.name h
      rwa [hcall] at this
    rw [delegationChildren, hcall]
    rcases res with e | root'
    · by_cases he : e = .targetSeen
      · simpa [he] using ih root st' hst'
      · simpa [he] using hst'
    · exact ih root' st' hst'

theorem getDelegatedTarget_inv (env : FetcherEnv) :
    ∀ (fuel : Nat) (root : RootTarget) (st : FetcherState) (name : String),
      FetcherInv st → FetcherInv (getDelegatedTarget env fuel root st name).2 := by
  intro fuel
  induction fuel with
  | zero => intro root st name h; simpa [getDelegatedTarget] using h
  | succ fuel ih =>
    intro root st name h
    rcases hfetch : fetcherFetch env st name with ⟨res, st'⟩
    have hst' : FetcherInv st' := by
      have := fetcherFetch_inv env st name h
      rwa [hfetch] at this
    rw [getDelegatedTarget, hfetch]
    rcases res with e | target
    · exact hst'
    · exact delegationChildren_inv (getDelegatedTarget env fuel)
        (fun root st name => ih root st name)
        target.signed.delegations.roles (root.append name target) st' hst'

theorem builderTopLoop_inv (env : FetcherEnv) (fuel : Nat) (root : RootTarget)
    (st : FetcherState) (cs : List DelegationRole) (h : FetcherInv st) :
    FetcherInv (builderTopLoop env fuel root st cs).2 := by
  induction cs generalizing root st with
  | nil => simpa [builderTopLoop] using h
  | cons c cs ih =>
    rw [builderTopLoop]
    rcases hcall : getDelegatedTarget env fuel root st c.name with ⟨res, st'⟩
    have hst' : FetcherInv st' := by
      have := getDelegatedTarget_inv env fuel root st c.name h
      rwa [hcall] at this
    rcases res with e | root'
    · exact hst'
    · exact ih root' st' hst'

theorem runTargetTreeBuild_inv (rootRole : Root) (env : FetcherEnv) (fuel : Nat) :
    FetcherInv (runTargetTreeBuild rootRole env fuel).2 := by
  have hempty : FetcherInv ⟨[], [], [], []⟩ :=
    ⟨List.nodup_nil, by simp, rfl, by simp [maxDelegationCount]⟩
  unfold runTargetTreeBuild
  rcases hinit : newNotaryTargetFetcher rootRole with e | st₀
  · simpa [hinit] using hempty
  · have hst₀ : FetcherInv st₀ := by
      unfold newNotaryTargetFetcher at hinit
      split at hinit
      · exact absurd hinit (by simp)
      · cases Except.ok.inj hinit
        exact ⟨List.nodup_nil, by simp, rfl, by simp [maxDelegationCount]⟩
    simp only [hinit]
    unfold targetTreeBuilder
    rcases hfetch : fetcherFetch env st₀ "targets" with ⟨res, st₁⟩
    have hst₁ : FetcherInv st₁ := by
      have := fetcherFetch_inv env st₀ "targets" hst₀
      rwa [hfetch] at this
    rcases res with e | targ
    · simpa [hfetch] using hst₁
    · simpa [hfetch] using builderTopLoop_inv env fuel
        ((initialRootTarget targ).append "targets" targ) st₁
        targ.signed.delegations.roles hst₁

/-- C2 (counterexample): a crafted delegation tree of 51 roles (the top
`targets` role plus delegates d1…d50) is built to completion: every one of the
51 roles — the 51st included — is fetched from the network, no TooManyDelegates
occurs, and the visited count reaches 51 > 50. -/
theorem delegation_build_51_roles_succeeds :
    isOkE run51.1 = true ∧ run51.2.requests.length = 51 ∧
    run51.2.requests.contains (dName 50) = true := by
  decide

/-- C2 (amended): every delegation-tree build fetches each role name at most
once and visits at most 51 roles; a crafted tree of 52 roles causes
TooManyDelegates before any network fetch of the 52nd role; a revisited name
yields TargetAlreadySeen, which a delegate parent skips — continuing with its
remaining children — while a revisit among the top targets role's direct
delegations aborts the build. -/
theorem delegation_build_visit_bounds :
    (∀ (rootRole : Root) (env : FetcherEnv) (fuel : Nat),
      (runTargetTreeBuild rootRole env fuel).2.requests.Nodup ∧
      (runTargetTreeBuild rootRole env fuel).2.requests.length ≤ 51) ∧
    (run52.1 = .error .tooManyDelegates ∧ run52.2.requests.length = 51 ∧
      run52.2.requests.contains (dName 51) = false) ∧
    (isOkE runSkip.1 = true ∧ runSkip.2.requests = ["targets", "a", "b"]) ∧
    (runRootDup.1 = .error .targetSeen ∧ runRootDup.2.requests = ["targets", "a"]) := by
  refine ⟨?_, ?_⟩
  · intro rootRole env fuel
    obtain ⟨hnd, _, hlen, hbound⟩ := runTargetTreeBuild_inv rootRole env fuel
    exact ⟨hnd, by rw [hlen]; simpa [maxDelegationCount] using hbound⟩
  · exact ⟨by decide, by decide, by decide⟩

/-! Claim C3: path precedence in RootTarget.append. -/

theorem appendPaths_alookup (ts : List (String × FileIntegrityMeta)) :
    ∀ (ps : List (String × FileIntegrityMeta)) (p : String),
      alookup p (appendPaths ps ts) =
        match alookup p ps with
        | some v => some v
        | none => alookup p ts := by
  induction ts with
  | nil =>
    intro ps p
    rcases hp : alookup p ps with _ | v <;> simp [appendPaths, alookup, hp]
  | cons hd tl ih =>
    obtain ⟨n, f⟩ := hd
    intro ps p
    rw [appendPaths]
    rcases hn : alookup n ps with _ | v
    · show alookup p (appendPaths (ps ++ [(n, f)]) tl) = _
      rw [ih (ps ++ [(n, f)]) p, alookup_append]
      rcases hp : alookup p ps with _ | w
      · by_cases hnp : n = p
        · subst hnp
          simp [alookup, hp]
        · simp [alookup, hp, hnp]
      · simp [alookup, hp]
    · show alookup p (appendPaths ps tl) = _
      rw [ih ps p]
      rcases hp : alookup p ps with _ | w
      · have hnp : n ≠ p := by
          intro he
          subst he
          rw [hn] at hp
          cases hp
        simp [alookup, hp, hnp]
      · simp [hp]

theorem appendPaths_keys_nodup (ts : List (String × FileIntegrityMeta)) :
    ∀ (ps : List (String × FileIntegrityMeta)), (akeys ps).Nodup →
      (akeys (appendPaths ps ts)).Nodup := by
  induction ts with
  | nil => intro ps h; simpa [appendPaths] using h
  | cons hd tl ih =>
    obtain ⟨n, f⟩ := hd
    intro ps h
    rw [appendPaths]
    rcases hn : alookup n ps with _ | v
    · show (akeys (appendPaths (ps ++ [(n, f)]) tl)).Nodup
      refine ih (ps ++ [(n, f)]) ?_
      have hmem : n ∉ akeys ps := (alookup_eq_none_iff n ps).mp hn
      rw [show akeys (ps ++ [(n, f)]) = akeys ps ++ [n] by simp [akeys]]
      rw [List.nodup_append]
      refine ⟨h, List.nodup_singleton n, fun a ha hb => ?_⟩
      simp only [List.mem_singleton] at hb
      subst hb
      exact hmem ha
    · show (akeys (appendPaths ps tl)).Nodup
      exact ih ps h

theorem appendAll_fold (calls : List (String × Targets)) :
    ∀ (rt : RootTarget), (akeys rt.paths).Nodup →
      (akeys (calls.foldl (fun rt c => rt.append c.1 c.2) rt).paths).Nodup ∧
      (calls.foldl (fun rt c => rt.append c.1 c.2) rt).targetPrecedence
        = rt.targetPrecedence ++ calls.map (fun c => { c.2 with delegateRole := c.1 }) ∧
      ∀ p, alookup p (calls.foldl (fun rt c => rt.append c.1 c.2) rt).paths
        = match alookup p rt.paths with
          | some v => some v
          | none => firstDeclaredFim p (calls.map fun c => { c.2 with delegateRole := c.1 }) := by
  induction calls with
  | nil =>
    intro rt h
    refine ⟨h, by simp, ?_⟩
    intro p
    rcases hp : alookup p rt.paths with _ | v <;> simp [firstDeclaredFim, hp]
  | cons c cs ih =>
    intro rt h
    have hnd₁ : (akeys (rt.append c.1 c.2).paths).Nodup := by
      simpa [RootTarget.append] using
        appendPaths_keys_nodup c.2.signed.targets rt.paths h
    obtain ⟨ha, hb, hc⟩ := ih (rt.append c.1 c.2) hnd₁
    refine ⟨by simpa using ha, ?_, ?_⟩
    · rw [List.foldl_cons, hb]
      simp [RootTarget.append, List.append_assoc]
    · intro p
      rw [List.foldl_cons, hc p]
      have hstep : alookup p (rt.append c.1 c.2).paths =
          match alookup p rt.paths with
          | some v => some v
          | none => alookup p c.2.signed.targets := by
        simpa [RootTarget.append] using
          appendPaths_alookup c.2.signed.targets rt.paths p
      rw [hstep]
      rcases hp : alookup p rt.paths with _ | v
      · simp only [firstDeclaredFim]
      · simp

/-- C3: after any sequence of RootTarget.append calls starting from the
freshly initialized RootTarget, the paths map contains at most one entry per
target path, the precedence list records the appended targets in order, and
for every path the recorded FIM is the one declared by the targets role with
the smallest index in targetPrecedence that declares the path at all (the
earliest appended, highest-precedence delegate wins). -/
theorem rootTarget_append_paths_precedence (targ : Targets)
    (calls : List (String × Targets)) :
    (akeys (appendAll targ calls).paths).Nodup ∧
    (appendAll targ calls).targetPrecedence
      = calls.map (fun c => { c.2 with delegateRole := c.1 }) ∧
    ∀ p, alookup p (appendAll targ calls).paths
      = firstDeclaredFim p ((appendAll targ calls).targetPrecedence) := by
  obtain ⟨ha, hb, hc⟩ := appendAll_fold calls (initialRootTarget targ)
    (by simp [initialRootTarget, akeys])
  refine ⟨ha, by simpa [initialRootTarget] using hb, ?_⟩
  intro p
  rw [show appendAll targ calls = calls.foldl (fun rt c => rt.append c.1 c.2)
      (initialRootTarget targ) from rfl] at *
  rw [hc p, hb]
  simp [initialRootTarget, alookup]


/-! Claim C4: changed-path computation and latest reporting. -/

theorem changedLoop_subset_keys (localPaths : List (String × FileIntegrityMeta)) :
    ∀ (remotePaths : List (String × FileIntegrityMeta)) (p : String),
      p ∈ changedLoop localPaths remotePaths → p ∈ akeys remotePaths := by
  intro remotePaths
  induction remotePaths with
  | nil => intro p h; simp [changedLoop] at h
  | cons hd tl ih =>
    obtain ⟨n, fim⟩ := hd
    intro p h
    rw [changedLoop] at h
    rcases hn : alookup n localPaths with _ | lfim
    · rw [hn] at h
      rcases List.mem_cons.mp h with rfl | h
      · simp [akeys]
      · simp only [akeys, List.map_cons, List.mem_cons]
        exact Or.inr (ih p h)
    · rw [hn] at h
      by_cases he : fim.Equal lfim
      · simp only [he, not_true, if_neg, ite_false] at h
        simp only [akeys, List.map_cons, List.mem_cons]
        have : p ∈ akeys tl := ih p (by simpa [he] using h)
        exact Or.inr this
      · simp only [he, not_false_iff, if_pos, ite_true] at h
        rcases List.mem_cons.mp (by simpa [he] using h) with rfl | h
        · simp [akeys]
        · simp only [akeys, List.map_cons, List.mem_cons]
          exact Or.inr (ih p h)

theorem changedLoop_mem_iff (localPaths : List (String × FileIntegrityMeta)) :
    ∀ (remotePaths : List (String × FileIntegrityMeta)) (p : String),
      (akeys remotePaths).Nodup →
      (p ∈ changedLoop localPaths remotePaths ↔
        ∃ fim, alookup p remotePaths = some fim ∧
          (alookup p localPaths = none ∨
            ∃ lfim, alookup p localPaths = some lfim ∧ fim.Equal lfim = false)) := by
  intro remotePaths
  induction remotePaths with
  | nil =>
    intro p _
    simp [changedLoop, alookup]
  | cons hd tl ih =>
    obtain ⟨n, fim⟩ := hd
    intro p hnd
    simp only [akeys, List.map_cons, List.nodup_cons] at hnd
    obtain ⟨hn_tl, hnd_tl⟩ := hnd
    rw [changedLoop]
    by_cases hp : n = p
    · subst hp
      have htl : n ∉ changedLoop localPaths tl := fun hmem =>
        hn_tl (changedLoop_subset_keys localPaths tl n hmem)
      have hlookup : alookup n ((n, fim) :: tl) = some fim := by simp [alookup]
      rcases hl : alookup n localPaths with _ | lfim
      · show (n ∈ n :: changedLoop localPaths tl) ↔ _
        constructor
        · intro _
          exact ⟨fim, hlookup, Or.inl rfl⟩
        · intro _
          exact List.mem_cons_self _ _
      · show (n ∈ if ¬fim.Equal lfim = true then n :: changedLoop localPaths tl
            else changedLoop localPaths tl) ↔ _
        by_cases he : fim.Equal lfim = true
        · rw [if_neg (fun hc => hc he)]
          constructor
          · intro hmem
            exact absurd hmem htl
          · rintro ⟨fim', hfim', hcase⟩
            obtain rfl := Option.some.inj (hfim'.symm.trans hlookup)
            rcases hcase with hnone | ⟨lfim', hlfim', hneq⟩
            · cases hnone
            · obtain rfl := Option.some.inj hlfim'.symm
              rw [he] at hneq
              cases hneq
        · rw [if_pos he]
          constructor
          · intro _
            exact ⟨fim, hlookup, Or.inr ⟨lfim, rfl, Bool.eq_false_iff.mpr he⟩⟩
          · intro _
            exact List.mem_cons_self _ _
    · have hlook : alookup p ((n, fim) :: tl) = alookup p tl := by
        simp [alookup, hp]
      have hstep : (p ∈ match alookup n localPaths with
          | none => n :: changedLoop localPaths tl
          | some lfim => if ¬fim.Equal lfim = true then n :: changedLoop localPaths tl
            else changedLoop localPaths tl) ↔
          p ∈ changedLoop localPaths tl := by
        rcases hq : alookup n localPaths with _ | lfim
        · show (p ∈ n :: changedLoop localPaths tl) ↔ _
          simp [Ne.symm hp]
        · show (p ∈ if ¬fim.Equal lfim = true then n :: changedLoop localPaths tl
              else changedLoop localPaths tl) ↔ _
          by_cases he : fim.Equal lfim = true
          · rw [if_neg (fun hc => hc he)]
          · rw [if_pos he]
            simp [Ne.symm hp]
      rw [hstep, ih p hnd_tl, hlook]

theorem Equal_iff_elementwise (f g : FileIntegrityMeta)
    (hf : (akeys f.hashes).Nodup) (hg : (akeys g.hashes).Nodup) :
    f.Equal g = true ↔ FimElementwiseEq f g := by
  constructor
  · intro h
    unfold FileIntegrityMeta.Equal at h
    by_cases hlen : f.length = g.length
    swap
    · simp [hlen] at h
    by_cases hcnt : f.hashes.length = g.hashes.length
    swap
    · simp [hlen, hcnt] at h
    simp only [hlen, ne_eq, not_true, if_false, hcnt, if_neg, not_false_iff,
      ite_false, List.all_eq_true] at h
    refine ⟨hlen, ?_⟩
    have hsub : akeys f.hashes ⊆ akeys g.hashes := by
      intro a ha
      rcases hfa : alookup a f.hashes with _ | v
      · exact absurd ((alookup_eq_none_iff a f.hashes).mp hfa) (by simpa using ha)
      · have hmem := alookup_mem a f.hashes v hfa
        have := h (a, v) hmem
        rcases hga : alookup a g.hashes with _ | w
        · rw [hga] at this; simp at this
        · exact (alookup_isSome_iff a g.hashes).mp (by rw [hga]; rfl)
    have hcard : (akeys f.hashes).toFinset = (akeys g.hashes).toFinset := by
      apply Finset.eq_of_subset_of_card_le
      · intro a ha
        rw [List.mem_toFinset] at ha ⊢
        exact hsub ha
      · rw [List.toFinset_card_of_nodup hf, List.toFinset_card_of_nodup hg]
        simp [akeys, hcnt]
    intro a
    rcases hfa : alookup a f.hashes with _ | v
    · have hafk : a ∉ akeys f.hashes := (alookup_eq_none_iff a f.hashes).mp hfa
      have hagk : a ∉ akeys g.hashes := by
        intro hmem
        apply hafk
        have : a ∈ (akeys g.hashes).toFinset := List.mem_toFinset.mpr hmem
        rw [← hcard] at this
        exact List.mem_toFinset.mp this
      rw [(alookup_eq_none_iff a g.hashes).mpr hagk]
    · have hmem := alookup_mem a f.hashes v hfa
      have := h (a, v) hmem
      rcases hga : alookup a g.hashes with _ | w
      · rw [hga] at this; simp at this
      · rw [hga] at this
        simp only [decide_eq_true_eq] at this
        rw [this]
  · rintro ⟨hlen, hlook⟩
    have hmemiff : ∀ a, a ∈ akeys f.hashes ↔ a ∈ akeys g.hashes := by
      intro a
      rw [← alookup_isSome_iff, ← alookup_isSome_iff, hlook a]
    have hperm : List.Perm (akeys f.hashes) (akeys g.hashes) :=
      (List.perm_ext_iff_of_nodup hf hg).mpr hmemiff
    have hcnt : f.hashes.length = g.hashes.length := by
      have := hperm.length_eq
      simpa [akeys] using this
    unfold FileIntegrityMeta.Equal
    simp only [hlen, ne_eq, not_true, ite_false, hcnt, not_false_iff,
      if_neg, List.all_eq_true]
    intro pair hmem
    obtain ⟨a, v⟩ := pair
    have hfa : alookup a f.hashes = some v := alookup_of_mem_nodup a f.hashes v hf hmem
    have hga : alookup a g.hashes = some v := by rw [← hlook a]; exact hfa
    simp [hga]

/-- C4: the changed-path set computed by a refresh contains exactly the paths
present in the remote paths map that are absent locally or whose local FIM is
not elementwise equal to the remote one, and refresh reports latest = true to
the caller if and only if that set is empty. -/
theorem getChangedPaths_refresh_characterization
    (env : RefreshEnv) (lt nt : RootTarget)
    (hl : env.localTargets = .ok lt) (hn : env.notaryTargets = .ok nt)
    (hnd : (akeys nt.paths).Nodup)
    (hndr : ∀ p fim, alookup p nt.paths = some fim → (akeys fim.hashes).Nodup)
    (hndl : ∀ p fim, alookup p lt.paths = some fim → (akeys fim.hashes).Nodup) :
    (∀ p, p ∈ getChangedPaths lt nt ↔
      ∃ fim, alookup p nt.paths = some fim ∧
        (alookup p lt.paths = none ∨
          ∃ lfim, alookup p lt.paths = some lfim ∧ ¬ FimElementwiseEq fim lfim)) ∧
    (∀ b, refresh env = .ok b → (b = true ↔ getChangedPaths lt nt = [])) := by
  constructor
  · intro p
    rw [getChangedPaths, changedLoop_mem_iff lt.paths nt.paths p hnd]
    constructor
    · rintro ⟨fim, hfim, hcase⟩
      refine ⟨fim, hfim, ?_⟩
      rcases hcase with hnone | ⟨lfim, hlfim, hne⟩
      · exact Or.inl hnone
      · refine Or.inr ⟨lfim, hlfim, ?_⟩
        intro helem
        have := (Equal_iff_elementwise fim lfim (hndr p fim hfim)
          (hndl p lfim hlfim)).mpr helem
        rw [this] at hne
        cases hne
    · rintro ⟨fim, hfim, hcase⟩
      refine ⟨fim, hfim, ?_⟩
      rcases hcase with hnone | ⟨lfim, hlfim, hne⟩
      · exact Or.inl hnone
      · refine Or.inr ⟨lfim, hlfim, ?_⟩
        rcases he : fim.Equal lfim with _ | _
        · rfl
        · exact absurd ((Equal_iff_elementwise fim lfim (hndr p fim hfim)
            (hndl p lfim hlfim)).mp he) hne
  · intro b hb
    unfold refresh at hb
    rcases hroot : env.rootRefresh with e | root <;> rw [hroot] at hb
    · cases hb
    rcases hts : env.timestampRefresh with e | ts <;> rw [hts] at hb
    · cases hb
    rcases hsnap : env.snapshotRefresh with e | snap <;> rw [hsnap] at hb
    · cases hb
    rw [show refreshTargets env = .ok (nt, getChangedPaths lt nt) by
      unfold refreshTargets
      rw [hl, hn]] at hb
    rcases hsave : env.saveResult with e | u <;> rw [hsave] at hb
    · cases hb
    obtain rfl := (Except.ok.inj hb).symm
    constructor
    · intro hlen
      have := of_decide_eq_true hlen
      exact List.length_eq_zero.mp this
    · intro hnil
      rw [hnil]
      rfl


/-- C4 (witness): the characterization applied to a concrete refresh in which
the notary view declares one path that is locally absent. -/
theorem getChangedPaths_refresh_characterization_witness :
    (∀ p, p ∈ getChangedPaths emptyLocalRoot wNotaryRT ↔
      ∃ fim, alookup p wNotaryRT.paths = some fim ∧
        (alookup p emptyLocalRoot.paths = none ∨
          ∃ lfim, alookup p emptyLocalRoot.paths = some lfim ∧
            ¬ FimElementwiseEq fim lfim)) ∧
    (∀ b, refresh wRefreshEnv = .ok b →
      (b = true ↔ getChangedPaths emptyLocalRoot wNotaryRT = [])) :=
  getChangedPaths_refresh_characterization wRefreshEnv emptyLocalRoot wNotaryRT
    rfl rfl (by decide)
    (by
      intro p fim h
      have hm := alookup_mem p _ fim h
      simp only [wNotaryRT, wFim, emptyLocalRoot, List.mem_singleton,
        Prod.mk.injEq] at hm
      obtain ⟨rfl, rfl⟩ := hm
      decide)
    (by
      intro p fim h
      simp [emptyLocalRoot, alookup] at h)

/-! Claim C1: snapshot refresh rollback guard over trusted targets. -/

theorem delegateRollbackCheck_ok_iff (current : Snapshot) :
    ∀ l : List (String × Targets),
      delegateRollbackCheck current l = .ok () ↔
        ∀ rt ∈ l, rt.2.signed.version ≤ current.signed.version := by
  intro l
  induction l with
  | nil => simp [delegateRollbackCheck]
  | cons hd tl ih =>
    obtain ⟨r, target⟩ := hd
    rw [delegateRollbackCheck]
    by_cases hv : target.signed.version > current.signed.version
    · rw [if_pos hv]
      constructor
      · intro h; cases h
      · intro h
        have hx := h (r, target) (List.mem_cons_self _ _)
        dsimp only at hx
        omega
    · rw [if_neg hv]
      rw [ih]
      constructor
      · intro h rt hmem
        rcases List.mem_cons.mp hmem with rfl | hmem'
        · dsimp only
          omega
        · exact h rt hmem'
      · intro h rt hmem
        exact h rt (List.mem_cons_of_mem _ hmem)

theorem delegateRollbackCheck_violation (current : Snapshot) :
    ∀ l : List (String × Targets),
      (∃ rt ∈ l, rt.2.signed.version > current.signed.version) →
      delegateRollbackCheck current l = .error .rollbackAttack := by
  intro l
  induction l with
  | nil => rintro ⟨rt, hmem, _⟩; simp at hmem
  | cons hd tl ih =>
    obtain ⟨r, target⟩ := hd
    rintro ⟨rt, hmem, hv⟩
    rw [delegateRollbackCheck]
    by_cases hh : target.signed.version > current.signed.version
    · rw [if_pos hh]
    · rw [if_neg hh]
      rcases List.mem_cons.mp hmem with rfl | hmem'
      · exact absurd hv hh
      · exact ih ⟨rt, hmem', hv⟩

/-- C1: whenever refreshSnapshot succeeds, the previously persisted root
targets version and the version of every previously persisted role in the
trusted lookup are at most the new snapshot's version; when one of these
comparisons fails, no snapshot is accepted, and — once the preceding steps
(meta lookup, fetch, signature check, previous-snapshot rollback check) have
passed — the result is exactly RollbackAttack. -/
theorem refreshSnapshot_targets_rollback_guard
    (env : SnapshotRefreshEnv) (root : Root) (timestamp : Timestamp) :
    (∀ snap trusted, refreshSnapshot env root timestamp = .ok snap →
      env.trustedTargets = .ok trusted →
      trusted.targets.signed.version ≤ snap.signed.version ∧
      ∀ rt ∈ trusted.targetLookup, rt.2.signed.version ≤ snap.signed.version) ∧
    (∀ current trusted fim,
      alookup "snapshot" timestamp.signed.meta = some fim →
      env.notarySnapshotFetch fim = .ok current →
      env.trustedTargets = .ok trusted →
      (trusted.targets.signed.version > current.signed.version ∨
        ∃ rt ∈ trusted.targetLookup,
          rt.2.signed.version > current.signed.version) →
      (∀ snap, refreshSnapshot env root timestamp ≠ .ok snap) ∧
      (verifySignatures env.verifier current.signed (getKeys root current.signatures)
          current.signatures
          ((alookup "snapshot" root.signed.roles).getD ⟨[], 0⟩).threshold = .ok () →
        ∀ previous, env.localSnapshot = .ok previous →
        previous.signed.version ≤ current.signed.version →
        refreshSnapshot env root timestamp = .error .rollbackAttack)) := by
  have drill : ∀ snap trusted, refreshSnapshot env root timestamp = .ok snap →
      env.trustedTargets = .ok trusted →
      snap ∈ (do
        let fim ← alookup "snapshot" timestamp.signed.meta
        (env.notarySnapshotFetch fim).toOption) ∧
      trusted.targets.signed.version ≤ snap.signed.version ∧
      ∀ rt ∈ trusted.targetLookup, rt.2.signed.version ≤ snap.signed.version := by
    intro snap trusted hok htr
    unfold refreshSnapshot at hok
    rcases hmeta : alookup "snapshot" timestamp.signed.meta with _ | fim <;>
      simp only [hmeta] at hok
    · exact Except.noConfusion hok
    rcases hfetch : env.notarySnapshotFetch fim with e | current <;>
      simp only [hfetch] at hok
    · exact Except.noConfusion hok
    rcases hvs : verifySignatures env.verifier current.signed
        (getKeys root current.signatures) current.signatures
        ((alookup "snapshot" root.signed.roles).getD ⟨[], 0⟩).threshold with e | u <;>
      simp only [hvs] at hok
    · exact Except.noConfusion hok
    rcases hloc : env.localSnapshot with e | previous <;>
      simp only [hloc] at hok
    · exact Except.noConfusion hok
    by_cases hprev : previous.signed.version > current.signed.version
    · rw [if_pos hprev] at hok
      exact Except.noConfusion hok
    rw [if_neg hprev] at hok
    simp only [htr] at hok
    by_cases htv : trusted.targets.signed.version > current.signed.version
    · rw [if_pos htv] at hok
      exact Except.noConfusion hok
    rw [if_neg htv] at hok
    rcases hdel : delegateRollbackCheck current trusted.targetLookup with e | u' <;>
      simp only [hdel] at hok
    · exact Except.noConfusion hok
    by_cases hfr : env.now > current.signed.expires
    · rw [if_pos hfr] at hok
      exact Except.noConfusion hok
    rw [if_neg hfr] at hok
    obtain rfl := Except.ok.inj hok
    refine ⟨by simp [Option.mem_def, hmeta, hfetch, Except.toOption], by omega, ?_⟩
    obtain rfl : u' = () := rfl
    exact (delegateRollbackCheck_ok_iff _ trusted.targetLookup).mp hdel
  have part1 : ∀ snap trusted, refreshSnapshot env root timestamp = .ok snap →
      env.trustedTargets = .ok trusted →
      trusted.targets.signed.version ≤ snap.signed.version ∧
      ∀ rt ∈ trusted.targetLookup, rt.2.signed.version ≤ snap.signed.version := by
    intro snap trusted hok htr
    obtain ⟨_, h1, h2⟩ := drill snap trusted hok htr
    exact ⟨h1, h2⟩
  refine ⟨part1, ?_⟩
  intro current trusted fim hmeta hfetch htr hviol
  constructor
  · intro snap hok
    obtain ⟨hmem, hle, hall⟩ := drill snap trusted hok htr
    have hsnap : snap = current := by
      have hmem' : some current = some snap := by
        simpa [Option.mem_def, hmeta, hfetch, Except.toOption] using hmem
      exact (Option.some.inj hmem').symm
    subst hsnap
    rcases hviol with hv | ⟨rt, hmem', hv⟩
    · omega
    · have := hall rt hmem'
      omega
  · intro hvs previous hloc hprevle
    unfold refreshSnapshot
    simp only [hmeta, hfetch, hvs, hloc]
    rw [if_neg (by omega)]
    simp only [htr]
    by_cases htv : trusted.targets.signed.version > current.signed.version
    · rw [if_pos htv]
    · rw [if_neg htv]
      rcases hviol with hv | hdelv
      · exact absurd hv htv
      · rw [delegateRollbackCheck_violation current trusted.targetLookup hdelv]


/-- C1 (witness): a concrete refresh in which the trusted targets run at
version 5 while the remote snapshot is at version 3 accepts nothing and fails
with RollbackAttack. -/
theorem refreshSnapshot_targets_rollback_guard_witness :
    (∀ snap, refreshSnapshot wSnapEnv wSnapRoot wSnapTimestamp ≠ .ok snap) ∧
    refreshSnapshot wSnapEnv wSnapRoot wSnapTimestamp = .error .rollbackAttack := by
  have h := (refreshSnapshot_targets_rollback_guard wSnapEnv wSnapRoot wSnapTimestamp).2
    wCurrentSnap wTrustedRT wFim rfl rfl rfl (Or.inl (by decide))
  exact ⟨h.1, h.2 rfl wPrevSnap rfl (by decide)⟩

/-! Claim C7: error priority of the multi-hash verifier. -/

theorem checkHashes_ok_or_mismatch (stream : List Nat) :
    ∀ infos : List ((List Nat → List Nat) × List Nat),
      checkHashes stream infos = .ok () ∨
      checkHashes stream infos = .error .hashIncorrect := by
  intro infos
  induction infos with
  | nil => exact Or.inl rfl
  | cons hd tl ih =>
    obtain ⟨hf, valid⟩ := hd
    rw [checkHashes]
    by_cases h : hf stream ≠ valid
    · rw [if_pos h]
      exact Or.inr rfl
    · rw [if_neg h]
      exact ih

theorem collectHashInfos_unsupported (b64decode : String → Option (List Nat))
    (sha256Fn sha512Fn : List Nat → List Nat) :
    ∀ hs : List (String × String),
      (∀ p ∈ hs, (b64decode p.2).isSome) →
      (∃ p ∈ hs, p.1 ≠ "sha256" ∧ p.1 ≠ "sha512") →
      collectHashInfos b64decode sha256Fn sha512Fn hs = .error .unsupportedHash := by
  intro hs
  induction hs with
  | nil => rintro _ ⟨p, hmem, _⟩; simp at hmem
  | cons hd tl ih =>
    obtain ⟨algo, dstr⟩ := hd
    rintro hdec ⟨p, hmem, hbad⟩
    have hdechd := hdec (algo, dstr) (List.mem_cons_self _ _)
    rcases hb : b64decode dstr with _ | valid
    · rw [hb] at hdechd
      simp at hdechd
    rw [collectHashInfos, hb]
    by_cases ha : algo = "sha256"
    · have hp : p ∈ tl := by
        rcases List.mem_cons.mp hmem with rfl | h
        · exact absurd ha hbad.1
        · exact h
      rw [show getHasher sha256Fn sha512Fn algo = .ok sha256Fn by
        simp [getHasher, ha]]
      rw [ih (fun q hq => hdec q (List.mem_cons_of_mem _ hq)) ⟨p, hp, hbad⟩]
    · by_cases ha' : algo = "sha512"
      · have hp : p ∈ tl := by
          rcases List.mem_cons.mp hmem with rfl | h
          · exact absurd ha' hbad.2
          · exact h
        rw [show getHasher sha256Fn sha512Fn algo = .ok sha512Fn by
          simp [getHasher, ha, ha']]
        rw [ih (fun q hq => hdec q (List.mem_cons_of_mem _ hq)) ⟨p, hp, hbad⟩]
      · rw [show getHasher sha256Fn sha512Fn algo = .error .unsupportedHash by
          simp [getHasher, ha, ha']]

theorem collectHashInfos_supported (b64decode : String → Option (List Nat))
    (sha256Fn sha512Fn : List Nat → List Nat) :
    ∀ hs : List (String × String),
      (∀ p ∈ hs, (b64decode p.2).isSome) →
      (∀ p ∈ hs, p.1 = "sha256" ∨ p.1 = "sha512") →
      ∃ infos, collectHashInfos b64decode sha256Fn sha512Fn hs = .ok infos ∧
        ∀ stream, (checkHashes stream infos = .ok () ↔
          ∀ p ∈ hs, ∀ hf d, getHasher sha256Fn sha512Fn p.1 = .ok hf →
            b64decode p.2 = some d → hf stream = d) := by
  intro hs
  induction hs with
  | nil =>
    intro _ _
    exact ⟨[], rfl, fun stream => by simp [checkHashes]⟩
  | cons hd tl ih =>
    obtain ⟨algo, dstr⟩ := hd
    intro hdec hsup
    have hdechd := hdec (algo, dstr) (List.mem_cons_self _ _)
    rcases hb : b64decode dstr with _ | valid
    · rw [hb] at hdechd
      simp at hdechd
    have hhd := hsup (algo, dstr) (List.mem_cons_self _ _)
    dsimp only at hhd
    have hget : ∃ hf₀, getHasher sha256Fn sha512Fn algo = .ok hf₀ := by
      rcases hhd with h | h
      · exact ⟨sha256Fn, by simp [getHasher, h]⟩
      · exact ⟨sha512Fn, by simp [getHasher, h]⟩
    obtain ⟨hf₀, hget⟩ := hget
    obtain ⟨infos, hcol, hiff⟩ := ih
      (fun q hq => hdec q (List.mem_cons_of_mem _ hq))
      (fun q hq => hsup q (List.mem_cons_of_mem _ hq))
    refine ⟨(hf₀, valid) :: infos, ?_, ?_⟩
    · rw [collectHashInfos, hb, hget, hcol]
    · intro stream
      rw [checkHashes]
      by_cases hmatch : hf₀ stream ≠ valid
      · rw [if_pos hmatch]
        constructor
        · intro h; cases h
        · intro h
          have := h (algo, dstr) (List.mem_cons_self _ _) hf₀ valid hget hb
          exact absurd this hmatch
      · rw [if_neg hmatch]
        rw [hiff stream]
        push_neg at hmatch
        constructor
        · intro h q hq hf d hg hd
          rcases List.mem_cons.mp hq with rfl | hq'
          · obtain rfl := Except.ok.inj (hget.symm.trans hg)
            obtain rfl := Option.some.inj (hb.symm.trans hd)
            exact hmatch
          · exact h q hq' hf d hg hd
        · intro h q hq hf d hg hd
          exact h q (List.mem_cons_of_mem _ hq) hf d hg hd

/-- C7: the multi-hash verifier fails with UnsupportedHash whenever the FIM
declares an algorithm other than sha256 or sha512; with only recognized
algorithms it fails with LengthMismatch when the observed stream length
differs from the declared length, otherwise with HashMismatch when some
recognized digester's output differs from its declared digest, and otherwise
succeeds.  Declared digests are assumed to decode (well-formed base64). -/
theorem fim_verify_error_priority (b64decode : String → Option (List Nat))
    (sha256Fn sha512Fn : List Nat → List Nat)
    (fim : FileIntegrityMeta) (stream : List Nat)
    (hdec : ∀ p ∈ fim.hashes, (b64decode p.2).isSome) :
    ((∃ p ∈ fim.hashes, p.1 ≠ "sha256" ∧ p.1 ≠ "sha512") →
      fim.verify b64decode sha256Fn sha512Fn stream = .error .unsupportedHash) ∧
    ((∀ p ∈ fim.hashes, p.1 = "sha256" ∨ p.1 = "sha512") →
      (((stream.length : Int) ≠ fim.length →
        fim.verify b64decode sha256Fn sha512Fn stream = .error .lengthIncorrect) ∧
      ((stream.length : Int) = fim.length →
        (((∃ p ∈ fim.hashes, ∃ hf d, getHasher sha256Fn sha512Fn p.1 = .ok hf ∧
            b64decode p.2 = some d ∧ hf stream ≠ d) →
          fim.verify b64decode sha256Fn sha512Fn stream = .error .hashIncorrect) ∧
        ((∀ p ∈ fim.hashes, ∀ hf d, getHasher sha256Fn sha512Fn p.1 = .ok hf →
            b64decode p.2 = some d → hf stream = d) →
          fim.verify b64decode sha256Fn sha512Fn stream = .ok ()))))) := by
  constructor
  · intro hbad
    unfold FileIntegrityMeta.verify
    rw [collectHashInfos_unsupported b64decode sha256Fn sha512Fn fim.hashes hdec hbad]
  · intro hsup
    obtain ⟨infos, hcol, hiff⟩ :=
      collectHashInfos_supported b64decode sha256Fn sha512Fn fim.hashes hdec hsup
    constructor
    · intro hlen
      unfold FileIntegrityMeta.verify
      simp only [hcol]
      rw [if_pos hlen]
    · intro hlen
      constructor
      · rintro ⟨p, hmem, hf, d, hg, hd, hne⟩
        unfold FileIntegrityMeta.verify
        simp only [hcol]
        rw [if_neg (by omega)]
        have hnotok : checkHashes stream infos ≠ .ok () := by
          intro hok
          exact hne ((hiff stream).mp hok p hmem hf d hg hd)
        rcases checkHashes_ok_or_mismatch stream infos with h | h
        · exact absurd h hnotok
        · exact h
      · intro hall
        unfold FileIntegrityMeta.verify
        simp only [hcol]
        rw [if_neg (by omega)]
        exact (hiff stream).mpr hall


/-- C7 (witness): a FIM declaring the unrecognized algorithm md5 is rejected
with UnsupportedHash. -/
theorem fim_verify_error_priority_witness :
    (∀ p ∈ ([("md5", "x")] : List (String × String)), (b64W p.2).isSome) ∧
    FileIntegrityMeta.verify b64W hashW hashW ⟨[("md5", "x")], 2⟩ [7, 7]
      = .error .unsupportedHash :=
  ⟨by decide,
    (fim_verify_error_priority b64W hashW hashW ⟨[("md5", "x")], 2⟩ [7, 7]
      (by decide)).1 ⟨("md5", "x"), by decide, by decide, by decide⟩⟩

/-! Claim C8: expectedLength handling on fetches. -/

theorem collectHashInfos_error_kinds (b64decode : String → Option (List Nat))
    (sha256Fn sha512Fn : List Nat → List Nat) :
    ∀ (hs : List (String × String)) (e : TufError),
      collectHashInfos b64decode sha256Fn sha512Fn hs = .error e →
      e = .invalidHashEncoding ∨ e = .unsupportedHash := by
  intro hs
  induction hs with
  | nil => intro e h; cases h
  | cons hd tl ih =>
    obtain ⟨algo, dstr⟩ := hd
    intro e h
    rw [collectHashInfos] at h
    rcases hb : b64decode dstr with _ | valid <;> rw [hb] at h
    · exact Or.inl (Except.error.inj h).symm
    rcases hg : getHasher sha256Fn sha512Fn algo with e' | hf <;> rw [hg] at h
    · unfold getHasher at hg
      by_cases h1 : algo = "sha256"
      · rw [if_pos h1] at hg; cases hg
      rw [if_neg h1] at hg
      by_cases h2 : algo = "sha512"
      · rw [if_pos h2] at hg; cases hg
      rw [if_neg h2] at hg
      obtain rfl := (Except.error.inj hg).symm
      exact Or.inr (Except.error.inj h).symm
    rcases hc : collectHashInfos b64decode sha256Fn sha512Fn tl with e' | infos <;>
      rw [hc] at h
    · obtain rfl := (Except.error.inj h).symm
      exact ih _ hc
    · cases h

theorem verify_ne_lengthIncorrect_of_length_eq
    (b64decode : String → Option (List Nat))
    (sha256Fn sha512Fn : List Nat → List Nat)
    (fim : FileIntegrityMeta) (stream : List Nat)
    (hlen : (stream.length : Int) = fim.length) :
    fim.verify b64decode sha256Fn sha512Fn stream ≠ .error .lengthIncorrect := by
  unfold FileIntegrityMeta.verify
  rcases hcol : collectHashInfos b64decode sha256Fn sha512Fn fim.hashes with e | infos
  · show (Except.error e : Except TufError Unit) ≠ .error .lengthIncorrect
    intro h
    rcases collectHashInfos_error_kinds b64decode sha256Fn sha512Fn fim.hashes e hcol
      with rfl | rfl <;> simp at h
  · show (if (stream.length : Int) ≠ fim.length then
        (Except.error TufError.lengthIncorrect : Except TufError Unit)
      else checkHashes stream infos) ≠ .error .lengthIncorrect
    rw [if_neg (show ¬((stream.length : Int) ≠ fim.length) from by omega)]
    rcases checkHashes_ok_or_mismatch stream infos with h | h <;> rw [h] <;>
      intro hc <;> simp at hc

/-- C8 (counterexample): a mirror response body one byte longer than the
declared length, whose prefix is the declared content, is ACCEPTED — the
read is limited to fim.Length bytes, the extra byte is silently discarded,
and no LengthMismatch occurs. -/
theorem download_extra_byte_accepted :
    downloadTarget b64W hashW hashW [("t", wFim)] "t" 200 [1, 2, 3, 9] = .ok () ∧
    (([1, 2, 3, 9].length : Int) = wFim.length + 1) := by
  constructor
  · decide
  · decide

/-- C8 (amended): with a declared expectedLength, a response body of exactly
expectedLength bytes is handed to the FIM verifier in full (accepted subject
to the hash checks); a body of expectedLength + 1 bytes is truncated to its
first expectedLength bytes, is handled identically to the truncated body, and
is never rejected with LengthMismatch.  The notary getRole path likewise
truncates a one-byte-longer body to the declared length before testing. -/
theorem download_length_truncation
    (b64decode : String → Option (List Nat))
    (sha256Fn sha512Fn : List Nat → List Nat)
    (paths : List (String × FileIntegrityMeta)) (target : String)
    (fim : FileIntegrityMeta) (body : List Nat)
    (hfim : alookup target paths = some fim) (hpos : 0 ≤ fim.length) :
    (((body.length : Int) = fim.length →
      downloadTarget b64decode sha256Fn sha512Fn paths target 200 body
        = fim.verify b64decode sha256Fn sha512Fn body) ∧
    ((body.length : Int) = fim.length + 1 →
      downloadTarget b64decode sha256Fn sha512Fn paths target 200 body
        = downloadTarget b64decode sha256Fn sha512Fn paths target 200
            (body.take fim.length.toNat) ∧
      downloadTarget b64decode sha256Fn sha512Fn paths target 200 body
        ≠ .error .lengthIncorrect)) ∧
    (∀ (maxResponseSize expectedLength : Int) (status : Nat)
        (testers : List (List Nat → Except TufError Unit)),
      0 < expectedLength → (body.length : Int) = expectedLength + 1 →
      getRoleBody maxResponseSize expectedLength status body testers
        = getRoleBody maxResponseSize expectedLength status
            (body.take expectedLength.toNat) testers) := by
  have hred : downloadTarget b64decode sha256Fn sha512Fn paths target 200 body
      = fim.verify b64decode sha256Fn sha512Fn (body.take fim.length.toNat) := by
    unfold downloadTarget
    simp only [hfim]
    rw [if_neg (by omega)]
  refine ⟨⟨?_, ?_⟩, ?_⟩
  · intro hlen
    rw [hred]
    rw [show fim.length.toNat = body.length by omega, List.take_length]
  · intro hlen
    have hred' : downloadTarget b64decode sha256Fn sha512Fn paths target 200
        (body.take fim.length.toNat)
        = fim.verify b64decode sha256Fn sha512Fn
            ((body.take fim.length.toNat).take fim.length.toNat) := by
      unfold downloadTarget
      simp only [hfim]
      rw [if_neg (by omega)]
    constructor
    · rw [hred, hred', List.take_take]
      simp
    · rw [hred]
      apply verify_ne_lengthIncorrect_of_length_eq
      rw [List.length_take]
      have : fim.length.toNat ≤ body.length := by omega
      rw [min_eq_left this]
      omega
  · intro maxResponseSize expectedLength status testers hel hlen
    unfold getRoleBody
    rw [if_pos hel]
    by_cases hst : status ≠ 200
    · rw [if_pos hst, if_pos hst]
    · rw [if_neg hst, if_neg hst, List.take_take]
      simp

/-- C8 (witness): the truncation equations applied to the concrete
four-byte body against a declared length of three. -/
theorem download_length_truncation_witness :
    alookup "t" [("t", wFim)] = some wFim ∧ (0 : Int) ≤ wFim.length ∧
    (downloadTarget b64W hashW hashW [("t", wFim)] "t" 200 [1, 2, 3, 9]
      = downloadTarget b64W hashW hashW [("t", wFim)] "t" 200
          ([1, 2, 3, 9].take wFim.length.toNat) ∧
    downloadTarget b64W hashW hashW [("t", wFim)] "t" 200 [1, 2, 3, 9]
      ≠ .error .lengthIncorrect) :=
  ⟨rfl, by decide,
    (download_length_truncation b64W hashW hashW [("t", wFim)] "t" wFim
      [1, 2, 3, 9] rfl (by decide)).1.2 (by decide)⟩

/-! Claim C5: the role-name validator's regular expression. -/

theorem rlit_matches_list (l : List Char) (x : List Char) :
    x ∈ ((l.map RegularExpression.char).foldr (· * ·) 1).matches' ↔ x = l := by
  induction l generalizing x with
  | nil =>
    simp [Language.mem_one]
  | cons c cs ih =>
    simp only [List.map_cons, List.foldr_cons, RegularExpression.matches'_mul,
      Language.mem_mul, RegularExpression.matches'_char, Set.mem_singleton_iff]
    constructor
    · rintro ⟨a, rfl, b, hb, rfl⟩
      rw [(ih b).mp hb]
      rfl
    · rintro rfl
      exact ⟨[c], rfl, cs, (ih cs).mpr rfl, rfl⟩

theorem rlit_matches (w : String) (x : List Char) :
    x ∈ (rlit w).matches' ↔ x = w.data :=
  rlit_matches_list w.data x

theorem rcls_matches (cs : List Char) (x : List Char) :
    x ∈ (rcls cs).matches' ↔ ∃ c ∈ cs, x = [c] := by
  induction cs with
  | nil => simp [rcls, RegularExpression.matches'_zero]
  | cons c cs ih =>
    simp only [rcls, List.map_cons, List.foldr_cons, RegularExpression.matches'_add,
      Language.mem_add, RegularExpression.matches'_char, Set.mem_singleton_iff]
    rw [show ((cs.map RegularExpression.char).foldr (· + ·) 0) = rcls cs from rfl]
    rw [ih]
    constructor
    · rintro (rfl | ⟨d, hd, rfl⟩)
      · exact ⟨c, List.mem_cons_self _ _, rfl⟩
      · exact ⟨d, List.mem_cons_of_mem _ hd, rfl⟩
    · rintro ⟨d, hd, rfl⟩
      rcases List.mem_cons.mp hd with rfl | hd'
      · exact Or.inl rfl
      · exact Or.inr ⟨d, hd', rfl⟩

theorem flatten_map_singleton (x : List Char) :
    (x.map (fun c => [c])).flatten = x := by
  induction x with
  | nil => rfl
  | cons c cs ih => simp [ih]

theorem rcls_star_matches (cs : List Char) (x : List Char) :
    x ∈ (rcls cs).star.matches' ↔ ∀ c ∈ x, c ∈ cs := by
  rw [RegularExpression.matches'_star, Language.mem_kstar]
  constructor
  · rintro ⟨L, rfl, hL⟩
    intro c hc
    obtain ⟨l, hl, hcl⟩ := List.mem_flatten.mp hc
    obtain ⟨d, hd, rfl⟩ := (rcls_matches cs l).mp (hL l hl)
    obtain rfl := List.mem_singleton.mp hcl
    exact hd
  · intro h
    refine ⟨x.map (fun c => [c]), (flatten_map_singleton x).symm, ?_⟩
    intro y hy
    obtain ⟨c, hc, rfl⟩ := List.mem_map.mp hy
    exact (rcls_matches cs [c]).mpr ⟨c, h c hc, rfl⟩

theorem nonzero_subset_digit : ∀ c ∈ nonzeroDigitChars, c ∈ digitChars := by
  decide

theorem versionedRoot_matches (x : List Char) :
    x ∈ ((rcls nonzeroDigitChars).star *
        (rplus (rcls digitChars) * rlit ".root")).matches' ↔
      ∃ ds : List Char, x = ds ++ ".root".data ∧ ds ≠ [] ∧
        ∀ c ∈ ds, c ∈ digitChars := by
  simp only [RegularExpression.matches'_mul, Language.mem_mul, rplus]
  constructor
  · rintro ⟨a, ha, y, ⟨b, ⟨d, hd, e, he, rfl⟩, z, hz, rfl⟩, rfl⟩
    obtain ⟨c, hc, rfl⟩ := (rcls_matches digitChars d).mp hd
    obtain rfl := (rlit_matches ".root" z).mp hz
    refine ⟨a ++ ([c] ++ e), by simp, by simp, ?_⟩
    intro ch hch
    rcases List.mem_append.mp hch with hch | hch
    · exact nonzero_subset_digit ch ((rcls_star_matches nonzeroDigitChars a).mp ha ch hch)
    · rcases List.mem_append.mp hch with hch | hch
      · obtain rfl := List.mem_singleton.mp hch
        exact hc
      · exact (rcls_star_matches digitChars e).mp he ch hch
  · rintro ⟨ds, rfl, hne, hdig⟩
    rcases ds with _ | ⟨c, ds'⟩
    · exact absurd rfl hne
    refine ⟨[], (rcls_star_matches nonzeroDigitChars []).mpr (by simp), ?_⟩
    refine ⟨(c :: ds') ++ ".root".data, ?_, rfl⟩
    refine ⟨c :: ds', ?_, ".root".data, (rlit_matches ".root" _).mpr rfl, rfl⟩
    refine ⟨[c], (rcls_matches digitChars [c]).mpr
      ⟨c, hdig c (List.mem_cons_self _ _), rfl⟩, ds', ?_, rfl⟩
    exact (rcls_star_matches digitChars ds').mpr
      (fun ch hch => hdig ch (List.mem_cons_of_mem _ hch))

/-- C5 (counterexample): the role validator accepts "0.root" and "01.root",
while the specification's regular expression
`^root$|^[1-9][0-9]*\.root$|^snapshot$|^timestamp$|^targets$` rejects both —
the source pattern is `^[1-9]*[0-9]+\.root$`, which admits leading zeros. -/
theorem validateRole_spec_regex_counterexample :
    validateRole "0.root" = true ∧ roleRegexSpec.rmatch "0.root".data = false ∧
    validateRole "01.root" = true ∧ roleRegexSpec.rmatch "01.root".data = false := by
  refine ⟨by decide, by decide, by decide, by decide⟩

/-- C5 (amended): the role-name validator accepts s if and only if s matches
the source regular expression
`^root$|^[1-9]*[0-9]+\.root$|^snapshot$|^timestamp$|^targets$`, i.e. exactly
when s is one of root, snapshot, timestamp, targets, or any nonempty string
of decimal digits followed by ".root" (leading zeros included). -/
theorem validateRole_characterization (s : String) :
    validateRole s = true ↔
      (s.data = "root".data ∨ s.data = "snapshot".data ∨
       s.data = "timestamp".data ∨ s.data = "targets".data ∨
       ∃ ds : List Char, s.data = ds ++ ".root".data ∧ ds ≠ [] ∧
         ∀ c ∈ ds, c ∈ digitChars) := by
  rw [show validateRole s = roleRegexSrc.rmatch s.data from rfl]
  rw [RegularExpression.rmatch_iff_matches']
  simp only [roleRegexSrc, RegularExpression.matches'_add, Language.mem_add]
  rw [rlit_matches, rlit_matches, rlit_matches, rlit_matches, versionedRoot_matches]
  constructor
  · rintro ((((h | h) | h) | h) | h)
    · exact Or.inl h
    · exact Or.inr (Or.inr (Or.inr (Or.inr h)))
    · exact Or.inr (Or.inl h)
    · exact Or.inr (Or.inr (Or.inl h))
    · exact Or.inr (Or.inr (Or.inr (Or.inl h)))
  · rintro (h | h | h | h | h)
    · exact Or.inl (Or.inl (Or.inl (Or.inl h)))
    · exact Or.inl (Or.inl (Or.inr h))
    · exact Or.inl (Or.inr h)
    · exact Or.inr h
    · exact Or.inl (Or.inl (Or.inl (Or.inr h)))


end KolideTuf
